import Mathlib

/-
Verification of the session aggregation engine of the `any-agent` repository.

The development shallowly embeds the token-usage aggregator, the Codex
transcript scanner's usage accumulation, the Claude transcript scanner's
tree reconstruction and deduplication, the fork detector and the session
orderer, translated from `packages/any-agent/src/codex.ts` and
`packages/any-agent/src/claudecode.ts`.

Modelling conventions:
* JavaScript numbers holding token counts and timestamps are modelled as
  `Int` (the code never divides them; malformed logs may make them
  negative, which the model keeps representable).
* A JSON field that is absent, `null`, or not a finite number is modelled
  as `none`; a present finite number as `some n` (this is the equivalence
  class that `ensureNumber` collapses to `0`).
* JavaScript `Map`s are modelled as association lists in insertion order,
  `Map.set` replacing the value in place, matching JS iteration order.
* `Array.prototype.sort` (stable by the ECMAScript spec) is modelled by
  `List.insertionSort`, which is stable for the reflexive comparator
  relations used here.
* Timestamps reaching a sort are modelled post-parse: the result of
  `Date` parsing is `Option Int` (epoch milliseconds), `none` for an
  unparsable or missing string.
* File system walking, JSON parsing and the pricing collaborator are the
  out-of-scope boundary: scanners are embedded as folds over already
  classified records, and the pricing lookup is an abstract function
  parameter, as the spec's collaborator contract prescribes.
-/

/-! ## Token usage data model (codex.ts `TokenUsage`) -/

/-- Canonical token usage accumulator (`TokenUsage` in codex.ts). -/
structure TokenUsage where
  inputTokens : Int
  cachedInputTokens : Int
  outputTokens : Int
  reasoningOutputTokens : Int
  totalTokens : Int
deriving DecidableEq, Repr

/-- `createEmptyUsage` / `DEFAULT_TOKEN_USAGE` in codex.ts. -/
def createEmptyUsage : TokenUsage :=
  { inputTokens := 0, cachedInputTokens := 0, outputTokens := 0,
    reasoningOutputTokens := 0, totalTokens := 0 }

/-- `blendedTokenTotal` in codex.ts:
`Math.max(0, inputTokens - cachedInputTokens) + outputTokens + reasoningOutputTokens`. -/
def blendedTokenTotal (usage : TokenUsage) : Int :=
  max 0 (usage.inputTokens - usage.cachedInputTokens)
    + usage.outputTokens + usage.reasoningOutputTokens

/-- `hasAnyTokenUsage` in claudecode.ts; the identical inline predicate filters
sessions in codex.ts `getSessions`. -/
def hasAnyTokenUsage (usage : TokenUsage) : Bool :=
  decide (0 < usage.inputTokens) || decide (0 < usage.cachedInputTokens) ||
    decide (0 < usage.outputTokens) || decide (0 < usage.reasoningOutputTokens)

/-! ## Small string helpers shared by both scanners -/

/-- JavaScript `String.prototype.trim`, executable model (drop whitespace from
both ends; JS's whitespace set is modelled by `Char.isWhitespace`). -/
def jsTrim (s : String) : String :=
  String.mk (((s.data.dropWhile Char.isWhitespace).reverse.dropWhile
    Char.isWhitespace).reverse)

/-- `asNonEmptyString` (same helper in codex.ts and claudecode.ts): a present
string value trims to non-empty or the result is `undefined`. A non-string
value is modelled as `none` input. -/
def asNonEmptyString (value : Option String) : Option String :=
  match value with
  | none => none
  | some s =>
    let trimmed := jsTrim s
    if trimmed = "" then none else some trimmed

/-! ## Codex scanner: raw usage normalization (codex.ts) -/

/-- A raw `last_token_usage` / `total_token_usage` JSON object as the scanner
sees it; `some n` is a present finite numeric field. -/
structure UsagePayload where
  input_tokens : Option Int
  cached_input_tokens : Option Int
  cache_read_input_tokens : Option Int
  output_tokens : Option Int
  reasoning_output_tokens : Option Int
  total_tokens : Option Int
deriving DecidableEq, Repr

/-- `RawUsage` in codex.ts. -/
structure RawUsage where
  input_tokens : Int
  cached_input_tokens : Int
  output_tokens : Int
  reasoning_output_tokens : Int
  total_tokens : Int
deriving DecidableEq, Repr

/-- `ensureNumber`: a finite numeric value passes through, anything else is 0. -/
def ensureNumber (value : Option Int) : Int := value.getD 0

/-- `normalizeRawUsage` in codex.ts. `cached_input_tokens ?? cache_read_input_tokens`
falls back only when the former field is absent. -/
def normalizeRawUsage (value : Option UsagePayload) : Option RawUsage :=
  match value with
  | none => none
  | some record =>
    let input := ensureNumber record.input_tokens
    let cached := ensureNumber
      (record.cached_input_tokens.orElse (fun _ => record.cache_read_input_tokens))
    let output := ensureNumber record.output_tokens
    let reasoning := ensureNumber record.reasoning_output_tokens
    let total := ensureNumber record.total_tokens
    some { input_tokens := input, cached_input_tokens := cached,
           output_tokens := output, reasoning_output_tokens := reasoning,
           total_tokens := if 0 < total then total else input + output }

/-- `subtractRawUsage` in codex.ts: pointwise `Math.max(current - previous, 0)`,
with a missing previous snapshot passing `current` through unchanged. -/
def subtractRawUsage (current : RawUsage) (previous : Option RawUsage) : RawUsage :=
  match previous with
  | none => current
  | some p =>
    { input_tokens := max (current.input_tokens - p.input_tokens) 0,
      cached_input_tokens := max (current.cached_input_tokens - p.cached_input_tokens) 0,
      output_tokens := max (current.output_tokens - p.output_tokens) 0,
      reasoning_output_tokens :=
        max (current.reasoning_output_tokens - p.reasoning_output_tokens) 0,
      total_tokens := max (current.total_tokens - p.total_tokens) 0 }

/-- `convertToDelta` in codex.ts: clamp cache reads to the input count and
recompute a non-positive total. -/
def convertToDelta (raw : RawUsage) : RawUsage :=
  { input_tokens := raw.input_tokens,
    cached_input_tokens := min raw.cached_input_tokens raw.input_tokens,
    output_tokens := raw.output_tokens,
    reasoning_output_tokens := raw.reasoning_output_tokens,
    total_tokens :=
      if 0 < raw.total_tokens then raw.total_tokens
      else raw.input_tokens + raw.output_tokens }

/-- `addUsage` in codex.ts. -/
def addUsage (target : TokenUsage) (delta : RawUsage) : TokenUsage :=
  { inputTokens := target.inputTokens + delta.input_tokens,
    cachedInputTokens := target.cachedInputTokens + delta.cached_input_tokens,
    outputTokens := target.outputTokens + delta.output_tokens,
    reasoningOutputTokens := target.reasoningOutputTokens + delta.reasoning_output_tokens,
    totalTokens := target.totalTokens + delta.total_tokens }

/-- JS `Map.get`-or-create followed by an update, preserving insertion order
(`Map.set` on an existing key keeps its position). -/
def upsertModelUsage (perModel : List (String × TokenUsage)) (name : String)
    (update : TokenUsage → TokenUsage) : List (String × TokenUsage) :=
  match perModel with
  | [] => [(name, update createEmptyUsage)]
  | (k, u) :: rest =>
    if k = name then (k, update u) :: rest
    else (k, u) :: upsertModelUsage rest name update

/-- `LEGACY_FALLBACK_MODEL` in codex.ts. -/
def legacyFallbackModel : String := "gpt-5-codex"

/-- One already-classified line of a Codex rollout file, as discriminated by
`isTurnContext` / `isTokenCountRecord` in `readHead`. `explicitModel` is the
result of `extractModel` on the token-count payload (trimmed non-empty or
absent). Lines of other kinds do not touch the usage accumulators. -/
inductive CodexLine where
  | turnContext (model : Option String)
  | tokenCount (explicitModel : Option String) (lastUsage : Option UsagePayload)
      (totalUsage : Option UsagePayload)
  | otherLine
deriving DecidableEq, Repr

/-- The usage-accumulating state threaded through `readHead`'s line loop. -/
structure CodexUsageState where
  totals : TokenUsage
  perModel : List (String × TokenUsage)
  previousTotals : Option RawUsage
  currentModel : Option String
deriving DecidableEq, Repr

def initialCodexUsageState : CodexUsageState :=
  { totals := createEmptyUsage, perModel := [], previousTotals := none,
    currentModel := none }

/-- The usage-relevant body of `readHead`'s per-line loop (codex.ts lines
813-864): turn-context updates the current model; a token-count event prefers
the incremental snapshot, derives a delta from the cumulative one otherwise,
always stores the latest cumulative snapshot, skips all-zero deltas, and
accumulates into the session and per-model records. -/
def readHeadStep (st : CodexUsageState) (line : CodexLine) : CodexUsageState :=
  match line with
  | .otherLine => st
  | .turnContext m =>
    match asNonEmptyString m with
    | some contextModel => { st with currentModel := some contextModel }
    | none => st
  | .tokenCount explicitModel lastU totalU =>
    let lastUsage := normalizeRawUsage lastU
    let totalUsage := normalizeRawUsage totalU
    let raw : Option RawUsage :=
      match lastUsage with
      | some r => some r
      | none =>
        match totalUsage with
        | some t => some (subtractRawUsage t st.previousTotals)
        | none => none
    let prevNext := match totalUsage with
      | some t => some t
      | none => st.previousTotals
    match raw with
    | none => { st with previousTotals := prevNext }
    | some r =>
      let delta := convertToDelta r
      if delta.input_tokens = 0 ∧ delta.cached_input_tokens = 0 ∧
          delta.output_tokens = 0 ∧ delta.reasoning_output_tokens = 0 then
        { st with previousTotals := prevNext }
      else
        let modelName :=
          (explicitModel.orElse (fun _ => st.currentModel)).getD legacyFallbackModel
        { totals := addUsage st.totals delta,
          perModel := upsertModelUsage st.perModel modelName
            (fun u => addUsage u delta),
          previousTotals := prevNext,
          currentModel := st.currentModel }

/-- The usage accumulation of `readHead` over an entire classified file. -/
def readHeadUsage (lines : List CodexLine) : CodexUsageState :=
  lines.foldl readHeadStep initialCodexUsageState

/-- The effective token count used for primary-model ranking: the explicit
total when positive, else input + output (claudecode.ts `selectPrimaryModel`
and the identical inline loop in codex.ts `getSessions`). -/
def usageTokens (u : TokenUsage) : Int :=
  if 0 < u.totalTokens then u.totalTokens else u.inputTokens + u.outputTokens

/-- The loop body of `selectPrimaryModel`: replace the leader only on a
strictly greater token count (`tokens > primaryTokens`). -/
def selectFold (acc : Option String × Int) (p : String × TokenUsage) :
    Option String × Int :=
  let tokens := usageTokens p.2
  if acc.2 < tokens then (some p.1, tokens) else acc

/-- `selectPrimaryModel` in claudecode.ts (the same fold appears inline in
codex.ts `getSessions`): start from `(null, -1)`. -/
def selectPrimaryModel (modelUsage : List (String × TokenUsage)) : Option String :=
  (modelUsage.foldl selectFold ((none : Option String), (-1 : Int))).1

/-- Modelled from the spec's words, for refinement comparison with
`selectPrimaryModel`: the first-encountered model whose effective token
count is maximal (a later entry wins only with a strictly greater count). -/
def firstMaxModel : List (String × TokenUsage) → Option (String × Int)
  | [] => none
  | p :: rest =>
    match firstMaxModel rest with
    | none => some (p.1, usageTokens p.2)
    | some (m, t) =>
      if t ≤ usageTokens p.2 then some (p.1, usageTokens p.2) else some (m, t)

/-! ## Claude scanner: message records and transcript reconstruction
(claudecode.ts) -/

/-- A raw Claude `message.usage` object (`ClaudeUsage` in claudecode.ts);
`extractUsage` keeps only present finite numeric fields. -/
structure ClaudeUsage where
  input_tokens : Option Int
  cache_creation_input_tokens : Option Int
  cache_read_input_tokens : Option Int
  output_tokens : Option Int
  reasoning_output_tokens : Option Int
deriving DecidableEq, Repr

/-- One parsed conversational log line (`ClaudeMessageRecord` in
claudecode.ts), flattened to the fields the scanner consults. `timestampMs`
is the record's timestamp after `Date` parsing (`none` when missing or
unparsable); `messageId`/`model` come from the nested `message` payload;
`requestId` from the raw record; `usage` is `extractUsage`'s result (`none`
when the payload has no numeric usage field). -/
structure ClaudeMessageRecord where
  uuid : String
  type : String
  timestampMs : Option Int
  parentUuid : Option String
  isSidechain : Bool
  messageId : Option String
  requestId : Option String
  model : Option String
  usage : Option ClaudeUsage
deriving DecidableEq, Repr

/-- JS truthiness of `parentUuid` as consulted by the scanner: `null`,
`undefined` and the empty string all count as "no parent". -/
def truthyParent (m : ClaudeMessageRecord) : Option String :=
  match m.parentUuid with
  | none => none
  | some p => if p = "" then none else some p

/-- Lookup in the `messages` map (keyed by `uuid`; the map is modelled by its
entry list, whose key always equals the value's `uuid` field). -/
def findMessage (messages : List ClaudeMessageRecord) (uuid : String) :
    Option ClaudeMessageRecord :=
  messages.find? (fun m => m.uuid = uuid)

/-- `parentLookup.has uuid`: some parsed message records `uuid` as its
(truthy) parent. -/
def hasChildRecord (messages : List ClaudeMessageRecord) (uuid : String) : Bool :=
  messages.any (fun m =>
    match truthyParent m with
    | some p => p = uuid
    | none => false)

/-- `identifyLeafMessages`: messages no other message names as parent. -/
def identifyLeafMessages (messages : List ClaudeMessageRecord) :
    List ClaudeMessageRecord :=
  messages.filter (fun m => ¬ hasChildRecord messages m.uuid)

/-- The backward walk of `buildTranscript`, with explicit fuel standing in
for the unbounded `while` loop: stop on a repeated uuid (cycle guard), a
falsy parent pointer, or a parent missing from the map. The walk order is
leaf-first; the source `unshift`s, so `buildTranscript` reverses at the end. -/
def buildTranscriptAux (messages : List ClaudeMessageRecord) :
    Nat → List String → ClaudeMessageRecord → List ClaudeMessageRecord
  | 0, _, _ => []
  | fuel + 1, visited, current =>
    if current.uuid ∈ visited then []
    else
      current ::
        (match truthyParent current with
         | none => []
         | some parentUuid =>
           match findMessage messages parentUuid with
           | none => []
           | some nxt =>
             buildTranscriptAux messages fuel (current.uuid :: visited) nxt)

/-- Fuel sufficient for the walk to reach one of its stopping conditions:
the visited set can only collect the leaf's uuid and uuids of map members. -/
def buildTranscriptFuel (messages : List ClaudeMessageRecord) : Nat :=
  messages.length + 2

/-- `buildTranscript` in claudecode.ts: root-first reconstructed transcript,
`null` when empty. -/
def buildTranscript (leaf : ClaudeMessageRecord)
    (messages : List ClaudeMessageRecord) : Option (List ClaudeMessageRecord) :=
  let transcript :=
    (buildTranscriptAux messages (buildTranscriptFuel messages) [] leaf).reverse
  if transcript.isEmpty then none else some transcript

/-- `getAssistantUsageKey` in claudecode.ts. -/
def getAssistantUsageKey (message : ClaudeMessageRecord) : String :=
  match asNonEmptyString message.messageId, asNonEmptyString message.requestId with
  | some messageIdVal, some requestIdVal => messageIdVal ++ ":" ++ requestIdVal
  | some messageIdVal, none => messageIdVal
  | none, some requestIdVal => requestIdVal
  | none, none => message.uuid

/-- JS `Map.set` on an association list: replace in place or append. -/
def upsertByKey (acc : List (String × ClaudeMessageRecord)) (key : String)
    (message : ClaudeMessageRecord) : List (String × ClaudeMessageRecord) :=
  match acc with
  | [] => [(key, message)]
  | (k, v) :: rest =>
    if k = key then (k, message) :: rest
    else (k, v) :: upsertByKey rest key message

/-- `collectAssistantUsageMessages` in claudecode.ts: assistant records with a
usage payload, deduplicated by usage key within the transcript (last record
wins, first-insertion order preserved, as for a JS `Map`). -/
def collectAssistantUsageMessages (transcript : List ClaudeMessageRecord) :
    List ClaudeMessageRecord :=
  (transcript.foldl
    (fun acc message =>
      if message.type = "assistant" ∧ message.usage.isSome then
        upsertByKey acc (getAssistantUsageKey message) message
      else acc)
    []).map (fun p => p.2)

/-- The accumulation step shared verbatim by `aggregateUsage` and
`aggregateUsageByModel` in claudecode.ts: `inputTokens` collects input plus
cache-write plus cache-read, `cachedInputTokens` the cache reads only, and
`totalTokens` the sum of all five raw components. -/
def addClaudeUsage (record : TokenUsage) (stats : ClaudeUsage) : TokenUsage :=
  let input := ensureNumber stats.input_tokens
  let cacheCreation := ensureNumber stats.cache_creation_input_tokens
  let cacheRead := ensureNumber stats.cache_read_input_tokens
  let output := ensureNumber stats.output_tokens
  let reasoning := ensureNumber stats.reasoning_output_tokens
  { inputTokens := record.inputTokens + input + cacheCreation + cacheRead,
    cachedInputTokens := record.cachedInputTokens + cacheRead,
    outputTokens := record.outputTokens + output,
    reasoningOutputTokens := record.reasoningOutputTokens + reasoning,
    totalTokens :=
      record.totalTokens + input + cacheCreation + cacheRead + output + reasoning }

/-- The per-message step of `aggregateUsage` (a record without a usage
payload is skipped by the `continue`). -/
def aggregateStep (usage : TokenUsage) (message : ClaudeMessageRecord) : TokenUsage :=
  match message.usage with
  | none => usage
  | some stats => addClaudeUsage usage stats

/-- `aggregateUsage` in claudecode.ts: session-level accumulation over the
admitted assistant usage messages. -/
def aggregateUsage (assistantMessages : List ClaudeMessageRecord) : TokenUsage :=
  assistantMessages.foldl aggregateStep createEmptyUsage

/-- `aggregateUsageByModel` in claudecode.ts: per-model accumulation, skipping
messages without a truthy model name or usage payload. -/
def aggregateUsageByModel (assistantMessages : List ClaudeMessageRecord) :
    List (String × TokenUsage) :=
  assistantMessages.foldl
    (fun perModel message =>
      match message.model, message.usage with
      | some model, some stats =>
        if model = "" then perModel
        else upsertModelUsage perModel model (fun u => addClaudeUsage u stats)
      | _, _ => perModel)
    []

/-! ## Session records and the Claude session pipeline -/

/-- A reconstructed session (`SessionSummary` in codex.ts), restricted to the
fields that the verified aggregation, fork-detection and ordering code reads
or writes. Display-only fields (path, preview, relative time, meta, head,
message count, cost) are never consulted by these functions and are omitted. -/
structure SessionRecord where
  id : String
  timestamp : Int
  forkSignature : Option String
  isFork : Bool
  branchMarker : String
  tokenUsage : TokenUsage
  blendedTokens : Int
  model : Option String
deriving DecidableEq, Repr

/-- `findFirstUserMessage` in claudecode.ts. -/
def findFirstUserMessage (transcript : List ClaudeMessageRecord) :
    Option ClaudeMessageRecord :=
  transcript.find? (fun m => m.type = "user")

/-- `timestampToNumber(x) ?? 0`, the leaf ordering key in `getClaudeSessions`. -/
def tsNumOrZero (m : ClaudeMessageRecord) : Int := m.timestampMs.getD 0

/-- The fork signature `createSessionSummary` stores: the first user message
summarized to length 120. Since no verified claim depends on the text
extraction and truncation internals, the summarizer is abstracted as a
parameter `summarizer` (claudecode.ts `summarizeMessage`), applied exactly
where the source applies it. -/
def claudeForkSignature (summarizer : ClaudeMessageRecord → Option String)
    (transcript : List ClaudeMessageRecord) : Option String :=
  match findFirstUserMessage transcript with
  | some firstUser => summarizer firstUser
  | none => none

/-- `parseDate(leaf.timestamp) ?? (file ? new Date(file.mtimeMs) : null)`:
the session timestamp with the transcript-file mtime fallback. -/
def claudeSessionTimestamp (leaf : ClaudeMessageRecord) (fileMtime : Option Int) :
    Option Int :=
  match leaf.timestampMs with
  | some t => some t
  | none => fileMtime

/-- `createSessionSummary` in claudecode.ts, restricted to the verified
fields: fail (`null`) when neither the leaf timestamp parses nor a transcript
file supplies an mtime fallback, or when no usage messages were admitted. -/
def createSessionSummary (summarizer : ClaudeMessageRecord → Option String)
    (leaf : ClaudeMessageRecord) (transcript : List ClaudeMessageRecord)
    (usageMessages : List ClaudeMessageRecord) (fileMtime : Option Int) :
    Option SessionRecord :=
  match claudeSessionTimestamp leaf fileMtime with
  | none => none
  | some ts =>
    if usageMessages.isEmpty then none
    else
      let tokenUsage := aggregateUsage usageMessages
      let modelUsage := aggregateUsageByModel usageMessages
      some { id := leaf.uuid, timestamp := ts,
             forkSignature := claudeForkSignature summarizer transcript,
             isFork := false, branchMarker := " ",
             tokenUsage := tokenUsage,
             blendedTokens := blendedTokenTotal tokenUsage,
             model := selectPrimaryModel modelUsage }

/-- A produced session together with the usage-message keys it consumed
(the source keeps the latter in the `sessionUsageDetails` side map). -/
structure ClaudeSessionEntry where
  session : SessionRecord
  usedKeys : List String
  usageMessages : List ClaudeMessageRecord
deriving DecidableEq, Repr

/-- The scan state of `getClaudeSessions`'s leaf loop: produced sessions,
`seenSessions`, and the cross-session `globalMessageKeys` dedup set. -/
structure ClaudeScanState where
  sessions : List ClaudeSessionEntry
  seenSessions : List String
  globalMessageKeys : List String
deriving DecidableEq, Repr

def initialClaudeScanState : ClaudeScanState :=
  { sessions := [], seenSessions := [], globalMessageKeys := [] }

/-- The body of `getClaudeSessions`'s `for (const leaf of orderedLeaves)` loop
(claudecode.ts lines 122-185): admission checks, cross-session key
deduplication, session creation, and dedup-set update. `fileMtime` models the
`leafToFile` lookup for the leaf. -/
def processLeaf (messages : List ClaudeMessageRecord)
    (summarizer : ClaudeMessageRecord → Option String)
    (fileMtime : String → Option Int) (st : ClaudeScanState)
    (leaf : ClaudeMessageRecord) : ClaudeScanState :=
  if leaf.uuid ∈ st.seenSessions then st
  else
    match buildTranscript leaf messages with
    | none => st
    | some transcript =>
      let nonSummaryMessages := transcript.filter (fun m => m.type ≠ "summary")
      if nonSummaryMessages.isEmpty then st
      else if ¬ nonSummaryMessages.any (fun m => ¬ m.isSidechain) then st
      else
        let assistantMessages := collectAssistantUsageMessages transcript
        let usageMessagesWithKeys :=
          (assistantMessages.map (fun m => (getAssistantUsageKey m, m))).filter
            (fun p => p.1 ∉ st.globalMessageKeys)
        if usageMessagesWithKeys.isEmpty then st
        else
          let usageMessages := usageMessagesWithKeys.map (fun p => p.2)
          match createSessionSummary summarizer leaf transcript usageMessages
              (fileMtime leaf.uuid) with
          | none => st
          | some session =>
            { sessions := st.sessions ++
                [{ session := session,
                   usedKeys := usageMessagesWithKeys.map (fun p => p.1),
                   usageMessages := usageMessages }],
              seenSessions := st.seenSessions ++ [session.id],
              globalMessageKeys :=
                st.globalMessageKeys ++ usageMessagesWithKeys.map (fun p => p.1) }

/-- `orderedLeaves`: candidate leaves sorted ascending by parsed timestamp,
an unparsable or missing timestamp sorting as 0 (stable, like JS sort). -/
def orderLeaves (leaves : List ClaudeMessageRecord) : List ClaudeMessageRecord :=
  List.insertionSort (fun a b => tsNumOrZero a ≤ tsNumOrZero b) leaves

/-- The session-producing part of `getClaudeSessions`: identify leaves, order
them, and run the leaf loop. -/
def claudeScan (messages : List ClaudeMessageRecord)
    (summarizer : ClaudeMessageRecord → Option String)
    (fileMtime : String → Option Int) : ClaudeScanState :=
  (orderLeaves (identifyLeafMessages messages)).foldl
    (processLeaf messages summarizer fileMtime) initialClaudeScanState

/-! ## Fork detector (codex.ts `markForkedSessions` / `setBranchMarkers`) -/

/-- Ascending stable sort by session timestamp (`(a, b) => a.ts - b.ts`). -/
def sortSessionsAsc (l : List SessionRecord) : List SessionRecord :=
  List.insertionSort (fun a b => a.timestamp ≤ b.timestamp) l

/-- Descending stable sort by session timestamp (`(a, b) => b.ts - a.ts`). -/
def sortSessionsDesc (l : List SessionRecord) : List SessionRecord :=
  List.insertionSort (fun a b => b.timestamp ≤ a.timestamp) l

/-- `setBranchMarkers` in codex.ts: sort the group descending, pop the last
(earliest) as the base with the terminal glyph, and give the remaining
members (re-sorted descending) the branch-start glyph at index 0 and the
continuation glyph elsewhere. The source mutates in place; here the updated
records are returned (descending members first, then the base). -/
def setBranchMarkers (group : List SessionRecord) : List SessionRecord :=
  if group.isEmpty then group
  else
    let sorted := sortSessionsDesc group
    let rest := sorted.dropLast
    let restSorted := sortSessionsDesc rest
    let marked :=
      match restSorted with
      | [] => []
      | first :: others =>
        { first with branchMarker := "┌" } ::
          others.map (fun s => { s with branchMarker := "├" })
    match sorted.getLast? with
    | some b => marked ++ [{ b with branchMarker := "┴" }]
    | none => marked

/-- The per-bucket body of `markForkedSessions` (codex.ts lines 1035-1050):
buckets of at most one session are untouched; otherwise sort ascending, leave
the earliest as base, set the fork flag on every other member, and assign
branch markers. -/
def markForkedBucket (bucket : List SessionRecord) : List SessionRecord :=
  if bucket.length ≤ 1 then bucket
  else
    match sortSessionsAsc bucket with
    | [] => []
    | base :: rest =>
      setBranchMarkers (base :: rest.map (fun s => { s with isFork := true }))

/-- The signature keys of `markForkedSessions`'s bucket map, in first-seen
order (JS `Map` insertion order); sessions with a null signature are skipped. -/
def bucketSignatures (sessions : List SessionRecord) : List String :=
  sessions.foldl
    (fun acc s =>
      match s.forkSignature with
      | some sig => if sig ∈ acc then acc else acc ++ [sig]
      | none => acc)
    []

/-- The buckets `markForkedSessions` iterates: per signature, the sessions
carrying it, in their original order. -/
def forkBuckets (sessions : List SessionRecord) : List (List SessionRecord) :=
  (bucketSignatures sessions).map
    (fun sig => sessions.filter (fun s => s.forkSignature = some sig))

/-! ## Session orderer (codex.ts `orderSessionsByBranch`) -/

/-- One value of `orderSessionsByBranch`'s `groupsMap`. -/
structure GroupEntry where
  sessions : List SessionRecord
  maxTimestamp : Int
deriving DecidableEq, Repr

/-- `groupsMap` update: push onto an existing entry (raising its max
timestamp) or append a fresh entry, keyed by `forkSignature ?? id`. -/
def addToGroups (groups : List (String × GroupEntry)) (key : String)
    (s : SessionRecord) : List (String × GroupEntry) :=
  match groups with
  | [] => [(key, { sessions := [s], maxTimestamp := s.timestamp })]
  | (k, e) :: rest =>
    if k = key then
      (k, { sessions := e.sessions ++ [s],
            maxTimestamp := max e.maxTimestamp s.timestamp }) :: rest
    else (k, e) :: addToGroups rest key s

/-- The per-session step of `orderSessionsByBranch`'s partition pass:
a session with a non-blank branch marker goes to the group keyed by
`forkSignature ?? id`; the rest are singles. -/
def collectStep (acc : List (String × GroupEntry) × List SessionRecord)
    (s : SessionRecord) : List (String × GroupEntry) × List SessionRecord :=
  if jsTrim s.branchMarker ≠ "" then
    (addToGroups acc.1 (s.forkSignature.getD s.id) s, acc.2)
  else (acc.1, acc.2 ++ [s])

/-- The partition pass of `orderSessionsByBranch`. -/
def collectGroupsSingles (sessions : List SessionRecord) :
    List (String × GroupEntry) × List SessionRecord :=
  sessions.foldl collectStep ([], [])

/-- Group entries with members sorted descending by timestamp, then the
entries sorted descending by representative (max member) timestamp. -/
def sortedGroupEntries (sessions : List SessionRecord) : List GroupEntry :=
  List.insertionSort (fun a b => b.maxTimestamp ≤ a.maxTimestamp)
    ((collectGroupsSingles sessions).1.map
      (fun p => { sessions := sortSessionsDesc p.2.sessions,
                  maxTimestamp := p.2.maxTimestamp }))

/-- Singles sorted descending by timestamp. -/
def sortedSingles (sessions : List SessionRecord) : List SessionRecord :=
  sortSessionsDesc (collectGroupsSingles sessions).2

/-- The merge loop of `orderSessionsByBranch` with structural fuel (each
iteration consumes exactly one group or single, so fuel equal to the summed
lengths makes the fuel case unreachable): repeatedly emit the whole next
group block or the next single, whichever's representative timestamp is
greater, the group on a tie (`nextGroupTs >= nextSingleTs`); an exhausted
side counts as `-Infinity`. -/
def mergeGroupsSinglesAux :
    Nat → List GroupEntry → List SessionRecord → List SessionRecord
  | 0, _, _ => []
  | _ + 1, [], [] => []
  | fuel + 1, g :: gs, [] => g.sessions ++ mergeGroupsSinglesAux fuel gs []
  | fuel + 1, [], s :: ss => s :: mergeGroupsSinglesAux fuel [] ss
  | fuel + 1, g :: gs, s :: ss =>
    if s.timestamp ≤ g.maxTimestamp then
      g.sessions ++ mergeGroupsSinglesAux fuel gs (s :: ss)
    else s :: mergeGroupsSinglesAux fuel (g :: gs) ss

/-- The merge loop at its exact fuel. -/
def mergeGroupsSingles (groups : List GroupEntry) (singles : List SessionRecord) :
    List SessionRecord :=
  mergeGroupsSinglesAux (groups.length + singles.length) groups singles

/-- `orderSessionsByBranch` in codex.ts. -/
def orderSessionsByBranch (sessions : List SessionRecord) : List SessionRecord :=
  mergeGroupsSingles (sortedGroupEntries sessions) (sortedSingles sessions)

/-! ## Visible sessions and totals (codex.ts `getSessions` lines 436-515,
claudecode.ts `getClaudeSessions` lines 194-258) -/

/-- The post-ordering zero-usage filter both scanners apply before reporting. -/
def visibleSessions (sessions : List SessionRecord) : List SessionRecord :=
  (orderSessionsByBranch sessions).filter (fun s => hasAnyTokenUsage s.tokenUsage)

/-- `totalBlendedTokens`: the reduce over the visible sessions. -/
def totalBlendedTokens (sessions : List SessionRecord) : Int :=
  ((visibleSessions sessions).map (fun s => s.blendedTokens)).sum

/-- `totalCostUsd`: the per-session costs summed over the visible sessions.
The pricing collaborator (lookup plus `calculateCostFromPricing`) is
abstracted as the per-session cost function `cost`, per the spec's
out-of-scope collaborator contract. -/
def totalCostUsd (cost : SessionRecord → ℚ) (sessions : List SessionRecord) : ℚ :=
  ((visibleSessions sessions).map cost).sum

/-! ## Concrete fixtures for witnesses and counterexamples -/

/-- Session fixture builder (identity fields plus the usage record). -/
def fxSession (i : String) (ts : Int) (sig : Option String) (marker : String)
    (usage : TokenUsage) : SessionRecord :=
  { id := i, timestamp := ts, forkSignature := sig, isFork := false,
    branchMarker := marker, tokenUsage := usage,
    blendedTokens := blendedTokenTotal usage, model := none }

/-- Message fixture builder. -/
def fxMsg (u : String) (ty : String) (ts : Option Int) (par : Option String)
    (sidechain : Bool) (mid rid mdl : Option String) (us : Option ClaudeUsage) :
    ClaudeMessageRecord :=
  { uuid := u, type := ty, timestampMs := ts, parentUuid := par,
    isSidechain := sidechain, messageId := mid, requestId := rid, model := mdl,
    usage := us }

/-- A Claude usage payload carrying reasoning output tokens. -/
def fxReasonUsage : ClaudeUsage :=
  { input_tokens := some 1, cache_creation_input_tokens := none,
    cache_read_input_tokens := none, output_tokens := some 2,
    reasoning_output_tokens := some 5 }

/-- An assistant message carrying `fxReasonUsage`. -/
def fxReasonMsg : ClaudeMessageRecord :=
  fxMsg "fxr" "assistant" (some 1) none false (some "mid") none (some "m")
    (some fxReasonUsage)

/-- Codex usage payload builder with every field present. -/
def fxPay (i c o r t : Int) : UsagePayload :=
  { input_tokens := some i, cached_input_tokens := some c,
    cache_read_input_tokens := none, output_tokens := some o,
    reasoning_output_tokens := some r, total_tokens := some t }

/-- Three cumulative-only token-count events: the second raises the cached
count past the input delta, the third keeps the explicit total flat while
input moves. -/
def fxCumulative1 : CodexLine := CodexLine.tokenCount none none (some (fxPay 10 2 0 0 10))

def fxCumulative2 : CodexLine := CodexLine.tokenCount none none (some (fxPay 11 6 0 0 11))

def fxCumulative3 : CodexLine := CodexLine.tokenCount none none (some (fxPay 12 6 0 0 11))

/-- A usage record with 10 total tokens, for model-selection fixtures. -/
def fxUsage10 : TokenUsage :=
  { inputTokens := 4, cachedInputTokens := 0, outputTokens := 6,
    reasoningOutputTokens := 0, totalTokens := 10 }

/-- A second, distinct usage record also ranking at 10 tokens (no explicit
total, falling back to input + output). -/
def fxUsage10b : TokenUsage :=
  { inputTokens := 7, cachedInputTokens := 0, outputTokens := 3,
    reasoningOutputTokens := 0, totalTokens := 0 }

/-- A usage record ranking at 3 tokens. -/
def fxUsage3 : TokenUsage :=
  { inputTokens := 1, cachedInputTokens := 0, outputTokens := 2,
    reasoningOutputTokens := 0, totalTokens := 3 }

/-- Fork-bucket fixture: three sessions sharing a signature, distinct
timestamps, out of chronological order. -/
def fxBucketSessions : List SessionRecord :=
  [fxSession "X" 5 (some "g") " " fxUsage10,
   fxSession "Y" 3 (some "g") " " fxUsage3,
   fxSession "Z" 9 (some "g") " " fxUsage10b]

/-- The spec's ordering example: singles S1 (ts 100) and S2 (ts 50) around
the already-marked group A (ts 90), B (ts 70). -/
def fxOrderExample : List SessionRecord :=
  [fxSession "S1" 100 none " " fxUsage10,
   fxSession "S2" 50 none " " fxUsage3,
   fxSession "A" 90 (some "g") "┌" fxUsage10b,
   fxSession "B" 70 (some "g") "┴" fxUsage3]

/-- A tie between a group's representative timestamp and a single. -/
def fxTieExample : List SessionRecord :=
  [fxSession "S1" 100 none " " fxUsage10,
   fxSession "G" 100 (some "h") "┴" fxUsage3]

/-- A session with all four canonical token fields zero (only the
display-irrelevant total set). -/
def fxZeroSession : SessionRecord :=
  fxSession "zero" 40 none " "
    { inputTokens := 0, cachedInputTokens := 0, outputTokens := 0,
      reasoningOutputTokens := 0, totalTokens := 7 }

/-- Claude message-forest fixture: one shared assistant usage node `a1`
under user root `u1`, referenced as parent by the two leaves `la` and `lb`. -/
def fxSharedUsage : ClaudeUsage :=
  { input_tokens := some 3, cache_creation_input_tokens := none,
    cache_read_input_tokens := none, output_tokens := some 2,
    reasoning_output_tokens := none }

def fxSharedAssistant : ClaudeMessageRecord :=
  fxMsg "a1" "assistant" (some 10) (some "u1") false (some "m1") (some "r1")
    (some "mod") (some fxSharedUsage)

def fxRootUser : ClaudeMessageRecord :=
  fxMsg "u1" "user" (some 5) none false none none none none

def fxLeafEarly : ClaudeMessageRecord :=
  fxMsg "la" "user" (some 20) (some "a1") false none none none none

def fxLeafLate : ClaudeMessageRecord :=
  fxMsg "lb" "user" (some 30) (some "a1") false none none none none

def fxForest : List ClaudeMessageRecord :=
  [fxRootUser, fxSharedAssistant, fxLeafEarly, fxLeafLate]

/-- A two-message cycle for the transcript cycle guard. -/
def fxCycleA : ClaudeMessageRecord :=
  fxMsg "c1" "user" (some 1) (some "c2") false none none none none

def fxCycleB : ClaudeMessageRecord :=
  fxMsg "c2" "user" (some 2) (some "c1") false none none none none

/-- The normalized form of `fxPay 10 2 0 0 10` (first cumulative snapshot). -/
def fxPrevRaw : RawUsage :=
  { input_tokens := 10, cached_input_tokens := 2, output_tokens := 0,
    reasoning_output_tokens := 0, total_tokens := 10 }

/-- The normalized form of `fxPay 11 6 0 0 11` (second cumulative snapshot). -/
def fxNextRaw : RawUsage :=
  { input_tokens := 11, cached_input_tokens := 6, output_tokens := 0,
    reasoning_output_tokens := 0, total_tokens := 11 }

/-! # Theorems -/

/-! ## C1: the blended-token invariant -/

/-- C1: for every token-usage record the derived blended-token count equals
max(0, inputTokens − cachedInputTokens) + outputTokens +
reasoningOutputTokens, and — whenever the output and reasoning counts are
non-negative, as canonical records keep them — it is never negative, in
particular when cachedInputTokens exceeds inputTokens in malformed input
(no relation between the two is assumed). -/
theorem c1_blended_token_invariant (u : TokenUsage)
    (hout : 0 ≤ u.outputTokens) (hreason : 0 ≤ u.reasoningOutputTokens) :
    blendedTokenTotal u =
      max 0 (u.inputTokens - u.cachedInputTokens) + u.outputTokens +
        u.reasoningOutputTokens ∧
    0 ≤ blendedTokenTotal u := by
  refine ⟨rfl, ?_⟩
  have h := le_max_left (0 : Int) (u.inputTokens - u.cachedInputTokens)
  unfold blendedTokenTotal
  omega

/-- Witness for C1 at a malformed record whose cached count (10) exceeds its
input count (3). -/
theorem c1_blended_token_invariant_witness :
    (0 : Int) ≤ (2 : Int) ∧ (0 : Int) ≤ (1 : Int) ∧
    (blendedTokenTotal ⟨3, 10, 2, 1, 0⟩ =
        max 0 ((3 : Int) - 10) + 2 + 1 ∧
      0 ≤ blendedTokenTotal ⟨3, 10, 2, 1, 0⟩) :=
  ⟨by decide, by decide,
    c1_blended_token_invariant ⟨3, 10, 2, 1, 0⟩ (by decide) (by decide)⟩

/-! ## C5: the totalTokens invariant -/

/-- The `aggregateStep` update preserves the Claude total-tokens equation. -/
theorem aggregateStep_preserves_total (u : TokenUsage) (m : ClaudeMessageRecord)
    (h : u.totalTokens = u.inputTokens + u.outputTokens + u.reasoningOutputTokens) :
    (aggregateStep u m).totalTokens =
      (aggregateStep u m).inputTokens + (aggregateStep u m).outputTokens +
        (aggregateStep u m).reasoningOutputTokens := by
  unfold aggregateStep
  cases m.usage with
  | none => exact h
  | some stats =>
    unfold addClaudeUsage
    dsimp only
    omega

/-- The Claude session accumulator always satisfies
`totalTokens = inputTokens + outputTokens + reasoningOutputTokens`. -/
theorem aggregateUsage_total_eq (msgs : List ClaudeMessageRecord) :
    (aggregateUsage msgs).totalTokens =
      (aggregateUsage msgs).inputTokens + (aggregateUsage msgs).outputTokens +
        (aggregateUsage msgs).reasoningOutputTokens := by
  have key : ∀ (ms : List ClaudeMessageRecord) (u : TokenUsage),
      u.totalTokens = u.inputTokens + u.outputTokens + u.reasoningOutputTokens →
      (ms.foldl aggregateStep u).totalTokens =
        (ms.foldl aggregateStep u).inputTokens +
          (ms.foldl aggregateStep u).outputTokens +
          (ms.foldl aggregateStep u).reasoningOutputTokens := by
    intro ms
    induction ms with
    | nil => intro u hu; simpa using hu
    | cons m rest ih =>
      intro u hu
      rw [List.foldl_cons]
      exact ih _ (aggregateStep_preserves_total u m hu)
  exact key msgs createEmptyUsage (by decide)

/-- C5 counterexample: a Claude usage payload carrying reasoning output
tokens (input 1, output 2, reasoning 5, no source total — the Claude usage
schema has no total field) aggregates to totalTokens 8, which differs from
inputTokens + outputTokens = 3, refuting the claimed else-branch. -/
theorem c5_total_tokens_counterexample :
    (aggregateUsage [fxReasonMsg]).totalTokens ≠
      (aggregateUsage [fxReasonMsg]).inputTokens +
        (aggregateUsage [fxReasonMsg]).outputTokens := by decide

/-- C5 (amended): for codex-normalized records, totalTokens equals the
source-provided total when that total is positive, else inputTokens +
outputTokens; for Claude-aggregated records, totalTokens equals
inputTokens + outputTokens + reasoningOutputTokens. -/
theorem c5_total_tokens_amended :
    (∀ (p : UsagePayload) (r : RawUsage), normalizeRawUsage (some p) = some r →
      (0 < ensureNumber p.total_tokens →
        r.total_tokens = ensureNumber p.total_tokens) ∧
      (ensureNumber p.total_tokens ≤ 0 →
        r.total_tokens = r.input_tokens + r.output_tokens)) ∧
    (∀ msgs : List ClaudeMessageRecord,
      (aggregateUsage msgs).totalTokens =
        (aggregateUsage msgs).inputTokens + (aggregateUsage msgs).outputTokens +
          (aggregateUsage msgs).reasoningOutputTokens) := by
  constructor
  · intro p r h
    simp only [normalizeRawUsage] at h
    cases h
    constructor
    · intro hpos
      dsimp only
      rw [if_pos hpos]
    · intro hneg
      dsimp only
      rw [if_neg (by omega)]
  · exact aggregateUsage_total_eq

/-- Witness for C5 (amended) at a codex payload with a positive explicit
total (7) and a nonpositive one (0), and at the Claude fixture. -/
theorem c5_total_tokens_amended_witness :
    ((0 < ensureNumber (fxPay 1 0 2 0 7).total_tokens →
        (7 : Int) = ensureNumber (fxPay 1 0 2 0 7).total_tokens) ∧
      (ensureNumber (fxPay 1 0 2 0 7).total_tokens ≤ 0 →
        (7 : Int) = 1 + 2)) ∧
    (aggregateUsage [fxReasonMsg]).totalTokens =
      (aggregateUsage [fxReasonMsg]).inputTokens +
        (aggregateUsage [fxReasonMsg]).outputTokens +
        (aggregateUsage [fxReasonMsg]).reasoningOutputTokens :=
  ⟨c5_total_tokens_amended.1 (fxPay 1 0 2 0 7)
      { input_tokens := 1, cached_input_tokens := 0, output_tokens := 2,
        reasoning_output_tokens := 0, total_tokens := 7 } (by decide),
    c5_total_tokens_amended.2 [fxReasonMsg]⟩

/-! ## C6: cumulative-snapshot delta handling -/

/-- C6 counterexample: across the fixture run of cumulative-only snapshots,
the second event's cumulative cached count rises from 2 to 6 while input
rises only from 10 to 11, yet the cached delta added to the accumulator is 1
(clamped to the input delta), not max(0, 6 − 2) = 4; and the third event
keeps the explicit total flat (11 → 11) while input moves, yet the total
delta added is 1 (recomputed input + output), not max(0, 11 − 11) = 0. -/
theorem c6_cumulative_delta_counterexample :
    (readHeadUsage [fxCumulative1, fxCumulative2]).totals.cachedInputTokens -
        (readHeadUsage [fxCumulative1]).totals.cachedInputTokens ≠
      max ((6 : Int) - 2) 0 ∧
    (readHeadUsage [fxCumulative1, fxCumulative2, fxCumulative3]).totals.totalTokens -
        (readHeadUsage [fxCumulative1, fxCumulative2]).totals.totalTokens ≠
      max ((11 : Int) - 11) 0 := by
  constructor
  · decide
  · decide

/-- C6 (amended): when a token-count event carries only a cumulative
snapshot and a previous cumulative snapshot `p` is stored, the delta added
to the accumulators is max(0, current − previous) for the input, output and
reasoning fields; the cached-input delta is that quantity further clamped to
the input delta; the total delta is recomputed as inputDelta + outputDelta
whenever max(0, currentTotal − previousTotal) is not positive; and the
stored previous cumulative snapshot is replaced by the new cumulative
value. (The skip of an all-zero delta is the hypothesis `hnz`.) -/
theorem c6_cumulative_delta_amended (st : CodexUsageState) (em : Option String)
    (t : UsagePayload) (tn p : RawUsage)
    (hprev : st.previousTotals = some p)
    (htn : normalizeRawUsage (some t) = some tn)
    (hnz : ¬ ((convertToDelta (subtractRawUsage tn (some p))).input_tokens = 0 ∧
        (convertToDelta (subtractRawUsage tn (some p))).cached_input_tokens = 0 ∧
        (convertToDelta (subtractRawUsage tn (some p))).output_tokens = 0 ∧
        (convertToDelta (subtractRawUsage tn (some p))).reasoning_output_tokens = 0)) :
    (readHeadStep st (CodexLine.tokenCount em none (some t))).previousTotals =
        some tn ∧
    (readHeadStep st (CodexLine.tokenCount em none (some t))).totals.inputTokens =
        st.totals.inputTokens + max (tn.input_tokens - p.input_tokens) 0 ∧
    (readHeadStep st (CodexLine.tokenCount em none (some t))).totals.outputTokens =
        st.totals.outputTokens + max (tn.output_tokens - p.output_tokens) 0 ∧
    (readHeadStep st (CodexLine.tokenCount em none (some t))).totals.reasoningOutputTokens =
        st.totals.reasoningOutputTokens +
          max (tn.reasoning_output_tokens - p.reasoning_output_tokens) 0 ∧
    (readHeadStep st (CodexLine.tokenCount em none (some t))).totals.cachedInputTokens =
        st.totals.cachedInputTokens +
          min (max (tn.cached_input_tokens - p.cached_input_tokens) 0)
            (max (tn.input_tokens - p.input_tokens) 0) ∧
    (readHeadStep st (CodexLine.tokenCount em none (some t))).totals.totalTokens =
        st.totals.totalTokens +
          (if 0 < max (tn.total_tokens - p.total_tokens) 0 then
            max (tn.total_tokens - p.total_tokens) 0
          else
            max (tn.input_tokens - p.input_tokens) 0 +
              max (tn.output_tokens - p.output_tokens) 0) := by
  simp only [readHeadStep, htn, hprev,
    show normalizeRawUsage (none : Option UsagePayload) = none from rfl]
  rw [if_neg hnz]
  simp [addUsage, subtractRawUsage, convertToDelta]

/-- Witness for C6 (amended) at the fixture state after the first cumulative
snapshot, applying the second snapshot. -/
theorem c6_cumulative_delta_amended_witness :
    (readHeadUsage [fxCumulative1]).previousTotals = some fxPrevRaw ∧
    normalizeRawUsage (some (fxPay 11 6 0 0 11)) = some fxNextRaw ∧
    (readHeadStep (readHeadUsage [fxCumulative1])
        (CodexLine.tokenCount none none (some (fxPay 11 6 0 0 11)))).totals.cachedInputTokens =
      (readHeadUsage [fxCumulative1]).totals.cachedInputTokens +
        min (max ((6 : Int) - 2) 0) (max ((11 : Int) - 10) 0) :=
  ⟨by decide, by decide,
    (c6_cumulative_delta_amended (readHeadUsage [fxCumulative1]) none
      (fxPay 11 6 0 0 11) fxNextRaw fxPrevRaw (by decide) (by decide)
      (by decide)).2.2.2.2.1⟩

/-! ## C7: primary-model selection -/

/-- The `selectPrimaryModel` fold is the identity on a list with no maximum
(the empty list). -/
theorem selectFold_foldl_none (l : List (String × TokenUsage))
    (hfm : firstMaxModel l = none) :
    ∀ (m : Option String) (h : Int), l.foldl selectFold (m, h) = (m, h) := by
  cases l with
  | nil => intro m h; rfl
  | cons x xs =>
    intro m h
    exfalso
    rcases hxs : firstMaxModel xs with _ | ⟨m₂, t₂⟩ <;>
      simp [firstMaxModel, hxs] at hfm
    split at hfm <;> simp at hfm

/-- The `selectPrimaryModel` fold from any accumulator equals the
first-encountered maximum when it beats the accumulator's threshold. -/
theorem selectFold_foldl_some (l : List (String × TokenUsage)) :
    ∀ (mm : String) (tt : Int), firstMaxModel l = some (mm, tt) →
      ∀ (m : Option String) (h : Int),
        l.foldl selectFold (m, h) = if h < tt then (some mm, tt) else (m, h) := by
  induction l with
  | nil => intro mm tt h₁; simp [firstMaxModel] at h₁
  | cons x xs ih =>
    intro mm tt h₁ m h
    rw [List.foldl_cons]
    have hstep : selectFold (m, h) x =
        if h < usageTokens x.2 then (some x.1, usageTokens x.2) else (m, h) := rfl
    rw [hstep]
    rcases hfm : firstMaxModel xs with _ | ⟨m₂, t₂⟩
    · simp only [firstMaxModel, hfm, Option.some.injEq, Prod.mk.injEq] at h₁
      obtain ⟨rfl, rfl⟩ := h₁
      by_cases hc : h < usageTokens x.2
      · rw [if_pos hc, selectFold_foldl_none xs hfm]
      · rw [if_neg hc, selectFold_foldl_none xs hfm]
    · simp only [firstMaxModel, hfm] at h₁
      by_cases hx : t₂ ≤ usageTokens x.2
      · rw [if_pos hx] at h₁
        simp only [Option.some.injEq, Prod.mk.injEq] at h₁
        obtain ⟨rfl, rfl⟩ := h₁
        by_cases hc : h < usageTokens x.2
        · rw [if_pos hc, ih m₂ t₂ hfm, if_neg (by omega)]
        · rw [if_neg hc, ih m₂ t₂ hfm, if_neg (by omega)]
      · rw [if_neg hx] at h₁
        simp only [Option.some.injEq, Prod.mk.injEq] at h₁
        obtain ⟨rfl, rfl⟩ := h₁
        by_cases hc : h < usageTokens x.2
        · rw [if_pos hc, ih m₂ t₂ hfm, if_pos (by omega), if_pos (by omega)]
        · rw [if_neg hc, ih m₂ t₂ hfm]

/-- The first-encountered maximum decomposes the list: everything before the
winner ranks strictly lower. -/
theorem firstMaxModel_decomp (l : List (String × TokenUsage)) :
    ∀ (mm : String) (tt : Int), firstMaxModel l = some (mm, tt) →
      ∃ pre post u, l = pre ++ (mm, u) :: post ∧ usageTokens u = tt ∧
        ∀ q ∈ pre, usageTokens q.2 < tt := by
  induction l with
  | nil => intro mm tt h₁; simp [firstMaxModel] at h₁
  | cons x xs ih =>
    intro mm tt h₁
    rcases hfm : firstMaxModel xs with _ | ⟨m₂, t₂⟩
    · simp only [firstMaxModel, hfm, Option.some.injEq, Prod.mk.injEq] at h₁
      obtain ⟨rfl, rfl⟩ := h₁
      exact ⟨[], xs, x.2, by simp, rfl, by simp⟩
    · simp only [firstMaxModel, hfm] at h₁
      by_cases hx : t₂ ≤ usageTokens x.2
      · rw [if_pos hx] at h₁
        simp only [Option.some.injEq, Prod.mk.injEq] at h₁
        obtain ⟨rfl, rfl⟩ := h₁
        exact ⟨[], xs, x.2, by simp, rfl, by simp⟩
      · rw [if_neg hx] at h₁
        simp only [Option.some.injEq, Prod.mk.injEq] at h₁
        obtain ⟨rfl, rfl⟩ := h₁
        obtain ⟨pre, post, u, hl, htt, hpre⟩ := ih m₂ t₂ hfm
        refine ⟨x :: pre, post, u, by simp [hl], htt, ?_⟩
        intro q hq
        rcases List.mem_cons.mp hq with rfl | hq
        · omega
        · exact hpre q hq

/-- The first-encountered maximum dominates every entry. -/
theorem firstMaxModel_max (l : List (String × TokenUsage)) :
    ∀ (mm : String) (tt : Int), firstMaxModel l = some (mm, tt) →
      ∀ q ∈ l, usageTokens q.2 ≤ tt := by
  induction l with
  | nil => intro mm tt h₁; simp [firstMaxModel] at h₁
  | cons x xs ih =>
    intro mm tt h₁ q hq
    rcases hfm : firstMaxModel xs with _ | ⟨m₂, t₂⟩
    · simp only [firstMaxModel, hfm, Option.some.injEq, Prod.mk.injEq] at h₁
      obtain ⟨rfl, rfl⟩ := h₁
      rcases List.mem_cons.mp hq with rfl | hq
      · omega
      · exfalso
        rcases hq' : xs with _ | ⟨y, ys⟩
        · rw [hq'] at hq; simp at hq
        · rw [hq'] at hfm
          rcases hys : firstMaxModel ys with _ | ⟨m₃, t₃⟩ <;>
            simp [firstMaxModel, hys] at hfm
          split at hfm <;> simp at hfm
    · simp only [firstMaxModel, hfm] at h₁
      by_cases hx : t₂ ≤ usageTokens x.2
      · rw [if_pos hx] at h₁
        simp only [Option.some.injEq, Prod.mk.injEq] at h₁
        obtain ⟨rfl, rfl⟩ := h₁
        rcases List.mem_cons.mp hq with rfl | hq
        · omega
        · have := ih m₂ t₂ hfm q hq
          omega
      · rw [if_neg hx] at h₁
        simp only [Option.some.injEq, Prod.mk.injEq] at h₁
        obtain ⟨rfl, rfl⟩ := h₁
        rcases List.mem_cons.mp hq with rfl | hq
        · omega
        · exact ih m₂ t₂ hfm q hq

/-- C7: primary-model selection returns the model with the highest effective
token count (explicit positive total, else input + output); on ties the
first-encountered model is kept — every entry before the winner ranks
strictly lower, so a later model displaces the leader only with a strictly
greater count. Stated for canonical records (non-negative effective counts)
of a non-empty model map. -/
theorem c7_primary_model_selection (l : List (String × TokenUsage))
    (hnn : ∀ q ∈ l, 0 ≤ usageTokens q.2) (hne : l ≠ []) :
    ∃ mm tt u pre post,
      selectPrimaryModel l = some mm ∧
      l = pre ++ (mm, u) :: post ∧
      usageTokens u = tt ∧
      (∀ q ∈ l, usageTokens q.2 ≤ tt) ∧
      (∀ q ∈ pre, usageTokens q.2 < tt) := by
  obtain ⟨mm, tt, hfm⟩ : ∃ mm tt, firstMaxModel l = some (mm, tt) := by
    rcases hl : firstMaxModel l with _ | ⟨mm, tt⟩
    · exfalso
      rcases l with _ | ⟨y, ys⟩
      · exact hne rfl
      · rcases hys : firstMaxModel ys with _ | ⟨m₃, t₃⟩ <;>
          simp [firstMaxModel, hys] at hl
        split at hl <;> simp at hl
    · exact ⟨mm, tt, rfl⟩
  obtain ⟨pre, post, u, hl, htt, hpre⟩ := firstMaxModel_decomp l mm tt hfm
  have hmem : (mm, u) ∈ l := by
    rw [hl]; exact List.mem_append_right _ (List.mem_cons_self _ _)
  have htt0 : 0 ≤ tt := htt ▸ hnn (mm, u) hmem
  have hsel : selectPrimaryModel l = some mm := by
    unfold selectPrimaryModel
    rw [selectFold_foldl_some l mm tt hfm none (-1), if_pos (by omega)]
  exact ⟨mm, tt, u, pre, post, hsel, hl, htt, firstMaxModel_max l mm tt hfm, hpre⟩

/-- Witness for C7 at a two-model map tied at 10 effective tokens (the first
via an explicit total, the second via input + output): selection keeps the
first-encountered model. -/
theorem c7_primary_model_selection_witness :
    ((∀ q ∈ [("a", fxUsage10), ("b", fxUsage10b)], 0 ≤ usageTokens q.2) ∧
      ([("a", fxUsage10), ("b", fxUsage10b)] : List (String × TokenUsage)) ≠ []) ∧
    (∃ mm tt u pre post,
      selectPrimaryModel [("a", fxUsage10), ("b", fxUsage10b)] = some mm ∧
      [("a", fxUsage10), ("b", fxUsage10b)] = pre ++ (mm, u) :: post ∧
      usageTokens u = tt ∧
      (∀ q ∈ [("a", fxUsage10), ("b", fxUsage10b)], usageTokens q.2 ≤ tt) ∧
      (∀ q ∈ pre, usageTokens q.2 < tt)) :=
  ⟨⟨by decide, by decide⟩,
    c7_primary_model_selection [("a", fxUsage10), ("b", fxUsage10b)]
      (by decide) (by decide)⟩

/-! ## C3: fork detection inside a signature bucket -/

theorem sortSessionsAsc_perm (l : List SessionRecord) : (sortSessionsAsc l).Perm l :=
  List.perm_insertionSort _ l

theorem sortSessionsDesc_perm (l : List SessionRecord) : (sortSessionsDesc l).Perm l :=
  List.perm_insertionSort _ l

theorem sortSessionsAsc_sorted (l : List SessionRecord) :
    (sortSessionsAsc l).Sorted (fun a b => a.timestamp ≤ b.timestamp) := by
  haveI : IsTotal SessionRecord (fun a b => a.timestamp ≤ b.timestamp) :=
    ⟨fun a b => le_total _ _⟩
  haveI : IsTrans SessionRecord (fun a b => a.timestamp ≤ b.timestamp) :=
    ⟨fun a b c hab hbc => le_trans hab hbc⟩
  exact List.sorted_insertionSort _ l

theorem sortSessionsDesc_sorted (l : List SessionRecord) :
    (sortSessionsDesc l).Sorted (fun a b => b.timestamp ≤ a.timestamp) := by
  haveI : IsTotal SessionRecord (fun a b => b.timestamp ≤ a.timestamp) :=
    ⟨fun a b => le_total _ _⟩
  haveI : IsTrans SessionRecord (fun a b => b.timestamp ≤ a.timestamp) :=
    ⟨fun a b c hab hbc => le_trans hbc hab⟩
  exact List.sorted_insertionSort _ l

/-- In a descending-sorted list the last element has minimal timestamp. -/
theorem desc_getLast_min (D : List SessionRecord)
    (hs : D.Sorted (fun a b => b.timestamp ≤ a.timestamp)) (h : D ≠ []) :
    ∀ s ∈ D, (D.getLast h).timestamp ≤ s.timestamp := by
  intro s hsmem
  have hd := List.dropLast_append_getLast h
  rw [← hd] at hsmem
  rcases List.mem_append.mp hsmem with hpre | hlast
  · have hcross := (List.pairwise_append.mp (by rw [hd]; exact hs)).2.2
    exact hcross s hpre (D.getLast h) (List.mem_singleton_self _)
  · rw [List.mem_singleton.mp hlast]

/-- In a descending-sorted list the head has maximal timestamp. -/
theorem desc_head_max (x : SessionRecord) (xs : List SessionRecord)
    (hs : (x :: xs).Sorted (fun a b => b.timestamp ≤ a.timestamp)) :
    ∀ s ∈ x :: xs, s.timestamp ≤ x.timestamp := by
  intro s hsmem
  rcases List.mem_cons.mp hsmem with rfl | hmem
  · exact le_refl _
  · exact (List.sorted_cons.mp hs).1 s hmem

/-- `setBranchMarkers` on a group with pairwise-distinct timestamps whose
unique earliest member is `m`: `m` comes back with the terminal base glyph
and is the only member carrying it; every other member comes back with the
branch-start glyph exactly when it is the most recent non-base member, the
continuation glyph otherwise; and every output member is of one of these
shapes. -/
theorem setBranchMarkers_spec (L : List SessionRecord)
    (hnd : (L.map (fun s => s.timestamp)).Nodup)
    (m : SessionRecord) (hm : m ∈ L)
    (hmin : ∀ s ∈ L, s ≠ m → m.timestamp < s.timestamp) :
    { m with branchMarker := "┴" } ∈ setBranchMarkers L ∧
    (∀ s ∈ setBranchMarkers L, s.branchMarker = "┴" →
      s = { m with branchMarker := "┴" }) ∧
    (∀ s ∈ L, s ≠ m →
      { s with branchMarker :=
          if ∀ t ∈ L, t ≠ m → t.timestamp ≤ s.timestamp then "┌" else "├" }
        ∈ setBranchMarkers L) ∧
    (∀ s ∈ setBranchMarkers L, s = { m with branchMarker := "┴" } ∨
      ∃ t, t ∈ L ∧ t ≠ m ∧
        (s = { t with branchMarker := "┌" } ∨
          s = { t with branchMarker := "├" })) := by
  have hLne : L ≠ [] := by
    intro h
    rw [h] at hm
    exact (List.not_mem_nil m) hm
  have hLnd : L.Nodup := List.Nodup.of_map _ hnd
  have hinj := List.inj_on_of_nodup_map hnd
  have hperm : (sortSessionsDesc L).Perm L := sortSessionsDesc_perm L
  have hsor := sortSessionsDesc_sorted L
  have hDne : sortSessionsDesc L ≠ [] := by
    intro h
    rw [h] at hperm
    exact hLne hperm.symm.eq_nil
  have hgmem : (sortSessionsDesc L).getLast hDne ∈ L :=
    hperm.mem_iff.mp (List.getLast_mem hDne)
  have hgmin : ∀ s ∈ L, ((sortSessionsDesc L).getLast hDne).timestamp ≤ s.timestamp :=
    fun s hs => desc_getLast_min _ hsor hDne s (hperm.mem_iff.mpr hs)
  have hgm : (sortSessionsDesc L).getLast hDne = m := by
    by_contra hne
    exact absurd (hgmin m hm) (not_le.mpr (hmin _ hgmem hne))
  have hdec : (sortSessionsDesc L).dropLast ++ [m] = sortSessionsDesc L := by
    rw [← hgm]
    exact List.dropLast_append_getLast hDne
  have hDnd : (sortSessionsDesc L).Nodup := hperm.symm.nodup hLnd
  have hXnd : ((sortSessionsDesc L).dropLast ++ [m]).Nodup := by rw [hdec]; exact hDnd
  have hmnotin : m ∉ (sortSessionsDesc L).dropLast := by
    intro hmem
    exact (List.nodup_append.mp hXnd).2.2 hmem (List.mem_singleton_self m)
  have hrest_mem : ∀ s, s ∈ (sortSessionsDesc L).dropLast ↔ (s ∈ L ∧ s ≠ m) := by
    intro s
    constructor
    · intro hs
      have hsD : s ∈ sortSessionsDesc L := by
        rw [← hdec]
        exact List.mem_append_left _ hs
      refine ⟨hperm.mem_iff.mp hsD, ?_⟩
      rintro rfl
      exact hmnotin hs
    · rintro ⟨hsL, hsm⟩
      have hsD : s ∈ sortSessionsDesc L := hperm.mem_iff.mpr hsL
      rw [← hdec] at hsD
      rcases List.mem_append.mp hsD with h | h
      · exact h
      · exact absurd (List.mem_singleton.mp h) hsm
  have hRperm : (sortSessionsDesc ((sortSessionsDesc L).dropLast)).Perm
      ((sortSessionsDesc L).dropLast) := sortSessionsDesc_perm _
  have hRsor := sortSessionsDesc_sorted ((sortSessionsDesc L).dropLast)
  have hRmem : ∀ s, s ∈ sortSessionsDesc ((sortSessionsDesc L).dropLast) ↔
      (s ∈ L ∧ s ≠ m) := fun s => (hRperm.mem_iff).trans (hrest_mem s)
  have hgl : (sortSessionsDesc L).getLast? = some m := by
    rw [List.getLast?_eq_getLast _ hDne, hgm]
  have hunfold : setBranchMarkers L =
      (match sortSessionsDesc ((sortSessionsDesc L).dropLast) with
       | [] => []
       | first :: others =>
         { first with branchMarker := "┌" } ::
           others.map (fun s => { s with branchMarker := "├" })) ++
        [{ m with branchMarker := "┴" }] := by
    rw [setBranchMarkers, if_neg (by simp [List.isEmpty_iff, hLne])]
    simp only [hgl]
  rw [hunfold]
  rcases hR : sortSessionsDesc ((sortSessionsDesc L).dropLast) with _ | ⟨first, others⟩
  · -- no non-base members
    have honly : ∀ s ∈ L, s = m := by
      intro s hs
      by_contra hsm
      have : s ∈ sortSessionsDesc ((sortSessionsDesc L).dropLast) :=
        (hRmem s).mpr ⟨hs, hsm⟩
      rw [hR] at this
      exact (List.not_mem_nil s) this
    refine ⟨by simp, ?_, ?_, ?_⟩
    · intro s hs _
      simp at hs
      exact hs
    · intro s hs hsm
      exact absurd (honly s hs) hsm
    · intro s hs
      simp at hs
      exact Or.inl hs
  · have hfirst_mem : first ∈ L ∧ first ≠ m := by
      have : first ∈ sortSessionsDesc ((sortSessionsDesc L).dropLast) := by
        rw [hR]
        exact List.mem_cons_self _ _
      exact (hRmem first).mp this
    have hfirst_max : ∀ t ∈ L, t ≠ m → t.timestamp ≤ first.timestamp := by
      intro t htL htm
      have htR : t ∈ first :: others := by
        rw [← hR]
        exact (hRmem t).mpr ⟨htL, htm⟩
      exact desc_head_max first others (hR ▸ hRsor) t htR
    have hRnd : (first :: others).Nodup := by
      rw [← hR]
      exact hRperm.symm.nodup ((List.nodup_append.mp hXnd).1)
    refine ⟨List.mem_append_right _ (List.mem_singleton_self _), ?_, ?_, ?_⟩
    · -- only the base carries the terminal glyph
      intro s hs hmark
      rcases List.mem_append.mp hs with hs | hs
      · exfalso
        rcases List.mem_cons.mp hs with rfl | hs
        · simp at hmark
        · rcases List.mem_map.mp hs with ⟨t, _, rfl⟩
          simp at hmark
      · exact List.mem_singleton.mp hs
    · -- each non-base member gets its glyph by recency rank
      intro s hsL hsm
      have hsR : s ∈ first :: others := by
        rw [← hR]
        exact (hRmem s).mpr ⟨hsL, hsm⟩
      rcases List.mem_cons.mp hsR with rfl | hs
      · have hcond : ∀ t ∈ L, t ≠ m → t.timestamp ≤ s.timestamp := hfirst_max
        rw [if_pos hcond]
        exact List.mem_append_left _ (List.mem_cons_self _ _)
      · have hcond : ¬ ∀ t ∈ L, t ≠ m → t.timestamp ≤ s.timestamp := by
          intro hall
          have h1 : first.timestamp ≤ s.timestamp :=
            hall first hfirst_mem.1 hfirst_mem.2
          have h2 : s.timestamp ≤ first.timestamp :=
            desc_head_max first others (hR ▸ hRsor) s hsR
          have hts : s.timestamp = first.timestamp := le_antisymm h2 h1
          have : s = first := hinj hsL hfirst_mem.1 hts
          rw [this] at hs
          exact (List.nodup_cons.mp hRnd).1 hs
        rw [if_neg hcond]
        refine List.mem_append_left _ (List.mem_cons_of_mem _ ?_)
        exact List.mem_map.mpr ⟨s, hs, rfl⟩
    · -- classification of every output member
      intro s hs
      rcases List.mem_append.mp hs with hs | hs
      · rcases List.mem_cons.mp hs with rfl | hs
        · exact Or.inr ⟨first, hfirst_mem.1, hfirst_mem.2, Or.inl rfl⟩
        · rcases List.mem_map.mp hs with ⟨t, htO, rfl⟩
          have htL : t ∈ L ∧ t ≠ m := (hRmem t).mp (by rw [hR]; exact List.mem_cons_of_mem _ htO)
          exact Or.inr ⟨t, htL.1, htL.2, Or.inr rfl⟩
      · exact Or.inl (List.mem_singleton.mp hs)

/-- C3: after fork detection, in every bucket of two or more sessions
sharing one (non-null) fork signature and having pairwise-distinct
timestamps and clear fork flags (as freshly scanned sessions do): the
chronologically earliest session keeps fork flag false and gets the
terminal base glyph, and it is the only session with that glyph; every
other member gets fork flag true; and a non-base member gets the
branch-start glyph exactly when it is the most recent non-base member, the
continuation glyph otherwise. -/
theorem c3_fork_bucket_marking (l b : List SessionRecord)
    (hb : b ∈ forkBuckets l) (hlen : 2 ≤ b.length)
    (hnd : (b.map (fun s => s.timestamp)).Nodup)
    (hflag : ∀ s ∈ b, s.isFork = false) :
    ∃ e ∈ b,
      (∀ s ∈ b, s ≠ e → e.timestamp < s.timestamp) ∧
      e.isFork = false ∧
      { e with branchMarker := "┴" } ∈ markForkedBucket b ∧
      (∀ s ∈ markForkedBucket b, s.branchMarker = "┴" →
        s = { e with branchMarker := "┴" }) ∧
      (∀ s ∈ markForkedBucket b, s ≠ { e with branchMarker := "┴" } →
        s.isFork = true) ∧
      (∀ s ∈ b, s ≠ e →
        { s with
            isFork := true,
            branchMarker :=
              if ∀ t ∈ b, t ≠ e → t.timestamp ≤ s.timestamp then "┌" else "├" }
          ∈ markForkedBucket b) := by
  have hnotshort : ¬ b.length ≤ 1 := by omega
  have haperm := sortSessionsAsc_perm b
  have hasor := sortSessionsAsc_sorted b
  have hbnd : b.Nodup := List.Nodup.of_map _ hnd
  have hinj := List.inj_on_of_nodup_map hnd
  rcases hsa : sortSessionsAsc b with _ | ⟨base, rest⟩
  · exfalso
    rw [hsa] at haperm
    rw [haperm.symm.eq_nil] at hlen
    simp at hlen
  have hbase_mem : base ∈ b := by
    rw [hsa] at haperm
    exact haperm.mem_iff.mp (List.mem_cons_self _ _)
  have hasnd : (base :: rest).Nodup := by
    have h := (sortSessionsAsc_perm b).symm.nodup hbnd
    rw [hsa] at h
    exact h
  have hbase_min : ∀ s ∈ b, s ≠ base → base.timestamp < s.timestamp := by
    intro s hs hsne
    have hsmem : s ∈ base :: rest := by
      rw [← hsa]
      exact (sortSessionsAsc_perm b).mem_iff.mpr hs
    rcases List.mem_cons.mp hsmem with rfl | hsr
    · exact absurd rfl hsne
    · have hle : base.timestamp ≤ s.timestamp :=
        (List.sorted_cons.mp (hsa ▸ hasor)).1 s hsr
      exact lt_of_le_of_ne hle (fun h => hsne (hinj hs hbase_mem h.symm))
  have hunfold : markForkedBucket b =
      setBranchMarkers (base :: rest.map (fun s => { s with isFork := true })) := by
    rw [markForkedBucket, if_neg hnotshort, hsa]
  have hFnd : ((base :: rest.map (fun s => { s with isFork := true })).map
      (fun s => s.timestamp)).Nodup := by
    have heq : (base :: rest.map (fun s => { s with isFork := true })).map
        (fun s => s.timestamp) = (base :: rest).map (fun s => s.timestamp) := by
      simp [List.map_map]
    rw [heq]
    have hp : ((base :: rest).map (fun s => s.timestamp)).Perm
        (b.map (fun s => s.timestamp)) := by
      refine List.Perm.map _ ?_
      rw [← hsa]
      exact sortSessionsAsc_perm b
    exact hp.symm.nodup hnd
  have hrest_of_mem : ∀ s ∈ b, s ≠ base → s ∈ rest := by
    intro s hs hsne
    have hsmem : s ∈ base :: rest := by
      rw [← hsa]
      exact (sortSessionsAsc_perm b).mem_iff.mpr hs
    rcases List.mem_cons.mp hsmem with rfl | hsr
    · exact absurd rfl hsne
    · exact hsr
  have hmem_of_rest : ∀ s ∈ rest, s ∈ b ∧ s ≠ base := by
    intro s hs
    constructor
    · have : s ∈ base :: rest := List.mem_cons_of_mem _ hs
      rw [← hsa] at this
      exact (sortSessionsAsc_perm b).mem_iff.mp this
    · rintro rfl
      exact (List.nodup_cons.mp hasnd).1 hs
  have hflagne : ∀ s ∈ b, ({ s with isFork := true } : SessionRecord) ≠ base := by
    intro s hs h
    have : ({ s with isFork := true } : SessionRecord).isFork = base.isFork := by
      rw [h]
    rw [hflag base hbase_mem] at this
    simp at this
  have hminF : ∀ s ∈ base :: rest.map (fun s => { s with isFork := true }),
      s ≠ base → base.timestamp < s.timestamp := by
    intro s hs hsne
    rcases List.mem_cons.mp hs with rfl | hs
    · exact absurd rfl hsne
    · rcases List.mem_map.mp hs with ⟨t, htr, rfl⟩
      exact hbase_min t (hmem_of_rest t htr).1 (hmem_of_rest t htr).2
  obtain ⟨hc1, hc2, hc3, hc4⟩ :=
    setBranchMarkers_spec (base :: rest.map (fun s => { s with isFork := true }))
      hFnd base (List.mem_cons_self _ _) hminF
  refine ⟨base, hbase_mem, hbase_min, hflag base hbase_mem, ?_, ?_, ?_, ?_⟩
  · rw [hunfold]
    exact hc1
  · intro s hs hmark
    rw [hunfold] at hs
    exact hc2 s hs hmark
  · intro s hs hsne
    rw [hunfold] at hs
    rcases hc4 s hs with heq | ⟨t, htF, htne, hglyph⟩
    · exact absurd heq hsne
    · have htfork : t.isFork = true := by
        rcases List.mem_cons.mp htF with rfl | htF
        · exact absurd rfl htne
        · rcases List.mem_map.mp htF with ⟨t₀, _, rfl⟩
          rfl
      rcases hglyph with rfl | rfl
      · exact htfork
      · exact htfork
  · intro s hs hsne
    have hsr : s ∈ rest := hrest_of_mem s hs hsne
    have hsF : ({ s with isFork := true } : SessionRecord) ∈
        base :: rest.map (fun s => { s with isFork := true }) :=
      List.mem_cons_of_mem _ (List.mem_map.mpr ⟨s, hsr, rfl⟩)
    have h3 := hc3 ({ s with isFork := true } : SessionRecord) hsF (hflagne s hs)
    have hcondiff : (∀ t ∈ base :: rest.map (fun s => { s with isFork := true }),
        t ≠ base → t.timestamp ≤ ({ s with isFork := true } : SessionRecord).timestamp) ↔
        (∀ t ∈ b, t ≠ base → t.timestamp ≤ s.timestamp) := by
      constructor
      · intro hall t htb htne
        have := hall { t with isFork := true }
          (List.mem_cons_of_mem _ (List.mem_map.mpr ⟨t, hrest_of_mem t htb htne, rfl⟩))
          (hflagne t htb)
        exact this
      · intro hall t htF htne
        rcases List.mem_cons.mp htF with rfl | htF
        · exact absurd rfl htne
        · rcases List.mem_map.mp htF with ⟨t₀, ht₀, rfl⟩
          exact hall t₀ (hmem_of_rest t₀ ht₀).1 (hmem_of_rest t₀ ht₀).2
    rw [hunfold]
    by_cases hcb : ∀ t ∈ b, t ≠ base → t.timestamp ≤ s.timestamp
    · rw [if_pos hcb]
      rw [if_pos (hcondiff.mpr hcb)] at h3
      exact h3
    · rw [if_neg hcb]
      rw [if_neg (fun hcf => hcb (hcondiff.mp hcf))] at h3
      exact h3

/-- Witness for C3 at the three-session fixture bucket (timestamps 9, 5, 3
sharing signature "g"). -/
theorem c3_fork_bucket_marking_witness :
    (fxBucketSessions ∈ forkBuckets fxBucketSessions ∧
      2 ≤ fxBucketSessions.length ∧
      (fxBucketSessions.map (fun s => s.timestamp)).Nodup ∧
      (∀ s ∈ fxBucketSessions, s.isFork = false)) ∧
    (∃ e ∈ fxBucketSessions,
      (∀ s ∈ fxBucketSessions, s ≠ e → e.timestamp < s.timestamp) ∧
      e.isFork = false ∧
      { e with branchMarker := "┴" } ∈ markForkedBucket fxBucketSessions ∧
      (∀ s ∈ markForkedBucket fxBucketSessions, s.branchMarker = "┴" →
        s = { e with branchMarker := "┴" }) ∧
      (∀ s ∈ markForkedBucket fxBucketSessions,
        s ≠ { e with branchMarker := "┴" } → s.isFork = true) ∧
      (∀ s ∈ fxBucketSessions, s ≠ e →
        { s with
            isFork := true,
            branchMarker :=
              if ∀ t ∈ fxBucketSessions, t ≠ e → t.timestamp ≤ s.timestamp
              then "┌" else "├" }
          ∈ markForkedBucket fxBucketSessions)) :=
  ⟨⟨by decide, by decide, by decide, by decide⟩,
    c3_fork_bucket_marking fxBucketSessions fxBucketSessions
      (by decide) (by decide) (by decide) (by decide)⟩

/-! ## C4: the session orderer -/

/-- The fuel parameter of the merge loop is irrelevant above the summed
lengths. -/
theorem mergeAux_congr (f₁ : Nat) :
    ∀ (f₂ : Nat) (gs : List GroupEntry) (ss : List SessionRecord),
      gs.length + ss.length ≤ f₁ → gs.length + ss.length ≤ f₂ →
      mergeGroupsSinglesAux f₁ gs ss = mergeGroupsSinglesAux f₂ gs ss := by
  induction f₁ with
  | zero =>
    intro f₂ gs ss h₁ _
    have hgs : gs = [] := List.length_eq_zero.mp (by omega)
    have hss : ss = [] := List.length_eq_zero.mp (by omega)
    subst hgs
    subst hss
    cases f₂ <;> rfl
  | succ f ih =>
    intro f₂ gs ss h₁ h₂
    cases gs with
    | nil =>
      cases ss with
      | nil => cases f₂ <;> rfl
      | cons s ss' =>
        cases f₂ with
        | zero =>
          exfalso
          simp only [List.length_nil, List.length_cons] at h₂
          omega
        | succ f₂' =>
          show s :: mergeGroupsSinglesAux f [] ss' =
            s :: mergeGroupsSinglesAux f₂' [] ss'
          simp only [List.length_nil, List.length_cons] at h₁ h₂
          rw [ih f₂' [] ss'
            (by simp only [List.length_nil, List.length_cons]; omega)
            (by simp only [List.length_nil, List.length_cons]; omega)]
    | cons g gs' =>
      cases ss with
      | nil =>
        cases f₂ with
        | zero =>
          exfalso
          simp only [List.length_nil, List.length_cons] at h₂
          omega
        | succ f₂' =>
          show g.sessions ++ mergeGroupsSinglesAux f gs' [] =
            g.sessions ++ mergeGroupsSinglesAux f₂' gs' []
          simp only [List.length_nil, List.length_cons] at h₁ h₂
          rw [ih f₂' gs' []
            (by simp only [List.length_nil, List.length_cons]; omega)
            (by simp only [List.length_nil, List.length_cons]; omega)]
      | cons s ss' =>
        cases f₂ with
        | zero =>
          exfalso
          simp only [List.length_cons] at h₂
          omega
        | succ f₂' =>
          simp only [List.length_cons] at h₁ h₂
          show (if s.timestamp ≤ g.maxTimestamp then
              g.sessions ++ mergeGroupsSinglesAux f gs' (s :: ss')
            else s :: mergeGroupsSinglesAux f (g :: gs') ss') =
            (if s.timestamp ≤ g.maxTimestamp then
              g.sessions ++ mergeGroupsSinglesAux f₂' gs' (s :: ss')
            else s :: mergeGroupsSinglesAux f₂' (g :: gs') ss')
          by_cases hc : s.timestamp ≤ g.maxTimestamp
          · rw [if_pos hc, if_pos hc, ih f₂' gs' (s :: ss')
              (by simp only [List.length_cons]; omega)
              (by simp only [List.length_cons]; omega)]
          · rw [if_neg hc, if_neg hc, ih f₂' (g :: gs') ss'
              (by simp only [List.length_cons]; omega)
              (by simp only [List.length_cons]; omega)]

theorem mergeGS_nil_nil : mergeGroupsSingles [] [] = [] := rfl

theorem mergeGS_cons_nil (g : GroupEntry) (gs : List GroupEntry) :
    mergeGroupsSingles (g :: gs) [] = g.sessions ++ mergeGroupsSingles gs [] := rfl

theorem mergeGS_nil_cons (s : SessionRecord) (ss : List SessionRecord) :
    mergeGroupsSingles [] (s :: ss) = s :: mergeGroupsSingles [] ss := rfl

theorem mergeGS_cons_cons (g : GroupEntry) (gs : List GroupEntry)
    (s : SessionRecord) (ss : List SessionRecord) :
    mergeGroupsSingles (g :: gs) (s :: ss) =
      if s.timestamp ≤ g.maxTimestamp then
        g.sessions ++ mergeGroupsSingles gs (s :: ss)
      else s :: mergeGroupsSingles (g :: gs) ss := by
  have h1 : mergeGroupsSinglesAux ((gs.length + 1) + ss.length) gs (s :: ss) =
      mergeGroupsSingles gs (s :: ss) :=
    (mergeAux_congr ((gs.length + 1) + ss.length) (gs.length + (s :: ss).length)
      gs (s :: ss) (by simp only [List.length_cons]; omega)
      (by simp only [List.length_cons]; omega)).trans rfl
  have h2 : mergeGroupsSinglesAux ((gs.length + 1) + ss.length) (g :: gs) ss =
      mergeGroupsSingles (g :: gs) ss :=
    (mergeAux_congr ((gs.length + 1) + ss.length) ((g :: gs).length + ss.length)
      (g :: gs) ss (by simp only [List.length_cons]; omega)
      (by simp only [List.length_cons]; omega)).trans rfl
  show (if s.timestamp ≤ g.maxTimestamp then
      g.sessions ++ mergeGroupsSinglesAux ((gs.length + 1) + ss.length) gs (s :: ss)
    else s :: mergeGroupsSinglesAux ((gs.length + 1) + ss.length) (g :: gs) ss) = _
  rw [h1, h2]

/-- The merge loop emits exactly the group blocks and the singles. -/
theorem mergeGS_perm (gs : List GroupEntry) (ss : List SessionRecord) :
    (mergeGroupsSingles gs ss).Perm
      ((gs.map (fun g => g.sessions)).flatten ++ ss) := by
  induction gs generalizing ss with
  | nil =>
    induction ss with
    | nil => simp [mergeGS_nil_nil]
    | cons s ss' ihs =>
      rw [mergeGS_nil_cons]
      simp only [List.map_nil, List.flatten_nil, List.nil_append] at ihs ⊢
      exact ihs.cons s
  | cons g gs' ihg =>
    induction ss with
    | nil =>
      rw [mergeGS_cons_nil]
      simp only [List.map_cons, List.flatten_cons, List.append_nil]
      have h := ihg []
      simp only [List.append_nil] at h
      exact List.Perm.append_left g.sessions h
    | cons s ss' ihs =>
      rw [mergeGS_cons_cons]
      by_cases hc : s.timestamp ≤ g.maxTimestamp
      · rw [if_pos hc]
        simp only [List.map_cons, List.flatten_cons, List.append_assoc]
        exact List.Perm.append_left g.sessions (ihg (s :: ss'))
      · rw [if_neg hc]
        exact (ihs.cons s).trans List.perm_middle.symm

/-- Every group's session list appears as one contiguous block in the merge
output. -/
theorem mergeGS_block (gs : List GroupEntry) (ss : List SessionRecord) :
    ∀ g ∈ gs, ∃ pre post, mergeGroupsSingles gs ss = pre ++ g.sessions ++ post := by
  induction gs generalizing ss with
  | nil => intro g hg; exact absurd hg (List.not_mem_nil g)
  | cons g₀ gs' ihg =>
    induction ss with
    | nil =>
      intro g hg
      rcases List.mem_cons.mp hg with rfl | hg'
      · exact ⟨[], mergeGroupsSingles gs' [], by rw [mergeGS_cons_nil]; simp⟩
      · obtain ⟨pre, post, hpp⟩ := ihg [] g hg'
        exact ⟨g₀.sessions ++ pre, post,
          by rw [mergeGS_cons_nil, hpp]; simp [List.append_assoc]⟩
    | cons s ss' ihs =>
      intro g hg
      by_cases hc : s.timestamp ≤ g₀.maxTimestamp
      · rcases List.mem_cons.mp hg with rfl | hg'
        · exact ⟨[], mergeGroupsSingles gs' (s :: ss'),
            by rw [mergeGS_cons_cons, if_pos hc]; simp⟩
        · obtain ⟨pre, post, hpp⟩ := ihg (s :: ss') g hg'
          exact ⟨g₀.sessions ++ pre, post,
            by rw [mergeGS_cons_cons, if_pos hc, hpp]; simp [List.append_assoc]⟩
      · obtain ⟨pre, post, hpp⟩ := ihs g hg
        exact ⟨s :: pre, post,
          by rw [mergeGS_cons_cons, if_neg hc, hpp]; simp⟩

/-- Appending the new session at the end of its group block is, up to
permutation, appending it at the end of everything. -/
theorem append_singleton_shuffle {α : Type} (a c : List α) (s : α) :
    ((a ++ [s]) ++ c).Perm ((a ++ c) ++ [s]) := by
  rw [List.append_assoc, List.append_assoc]
  exact List.Perm.append_left a (List.perm_append_singleton s c).symm

/-- `addToGroups` adds exactly the new session to the grouped multiset. -/
theorem addToGroups_flatten_perm (gs : List (String × GroupEntry)) (key : String)
    (s : SessionRecord) :
    ((addToGroups gs key s).map (fun p => p.2.sessions)).flatten.Perm
      ((gs.map (fun p => p.2.sessions)).flatten ++ [s]) := by
  induction gs with
  | nil => simp [addToGroups]
  | cons p rest ih =>
    obtain ⟨k, e⟩ := p
    by_cases hk : k = key
    · simp only [addToGroups]
      rw [if_pos hk]
      simp only [List.map_cons, List.flatten_cons]
      exact append_singleton_shuffle e.sessions _ s
    · simp only [addToGroups]
      rw [if_neg hk]
      simp only [List.map_cons, List.flatten_cons]
      refine ((List.Perm.append_left e.sessions ih).trans ?_)
      rw [← List.append_assoc]

/-- The partition pass preserves the session multiset. -/
theorem collectGroupsSingles_perm (l : List SessionRecord) :
    ((((collectGroupsSingles l).1.map (fun p => p.2.sessions)).flatten) ++
      (collectGroupsSingles l).2).Perm l := by
  have key : ∀ (ms : List SessionRecord)
      (acc : List (String × GroupEntry) × List SessionRecord),
      ((((ms.foldl collectStep acc).1.map (fun p => p.2.sessions)).flatten) ++
        (ms.foldl collectStep acc).2).Perm
        (((acc.1.map (fun p => p.2.sessions)).flatten ++ acc.2) ++ ms) := by
    intro ms
    induction ms with
    | nil => intro acc; simp
    | cons s rest ih =>
      intro acc
      rw [List.foldl_cons]
      refine (ih (collectStep acc s)).trans ?_
      have hstep : (((collectStep acc s).1.map (fun p => p.2.sessions)).flatten ++
          (collectStep acc s).2).Perm
          (((acc.1.map (fun p => p.2.sessions)).flatten ++ acc.2) ++ [s]) := by
        by_cases hm : jsTrim s.branchMarker ≠ ""
        · rw [collectStep, if_pos hm]
          refine (List.Perm.append_right acc.2
            (addToGroups_flatten_perm acc.1 (s.forkSignature.getD s.id) s)).trans ?_
          exact append_singleton_shuffle _ acc.2 s
        · rw [collectStep, if_neg hm]
          rw [← List.append_assoc]
      refine (List.Perm.append_right rest hstep).trans ?_
      rw [List.append_assoc]
      exact List.Perm.refl _
  have h := key l ([], [])
  simpa using h

/-- Sorting each group's members does not change the grouped multiset. -/
theorem flatten_map_sortDesc_perm (gs : List (String × GroupEntry)) :
    ((gs.map (fun p => sortSessionsDesc p.2.sessions)).flatten).Perm
      ((gs.map (fun p => p.2.sessions)).flatten) := by
  induction gs with
  | nil => simp
  | cons p rest ih =>
    simp only [List.map_cons, List.flatten_cons]
    exact List.Perm.append (sortSessionsDesc_perm _) ih

/-- `addToGroups` preserves the invariant that each entry's `maxTimestamp`
is attained by a member and bounds all members. -/
theorem addToGroups_max_inv (gs : List (String × GroupEntry)) (key : String)
    (s : SessionRecord)
    (h : ∀ p ∈ gs, (∀ t ∈ p.2.sessions, t.timestamp ≤ p.2.maxTimestamp) ∧
      ∃ t ∈ p.2.sessions, t.timestamp = p.2.maxTimestamp) :
    ∀ p ∈ addToGroups gs key s,
      (∀ t ∈ p.2.sessions, t.timestamp ≤ p.2.maxTimestamp) ∧
      ∃ t ∈ p.2.sessions, t.timestamp = p.2.maxTimestamp := by
  induction gs with
  | nil =>
    intro p hp
    simp only [addToGroups, List.mem_singleton] at hp
    subst hp
    exact ⟨by intro t ht; simp at ht; subst ht; exact le_refl _,
      ⟨s, List.mem_singleton_self s, rfl⟩⟩
  | cons q rest ih =>
    obtain ⟨k, e⟩ := q
    intro p hp
    by_cases hk : k = key
    · simp only [addToGroups, if_pos hk] at hp
      rcases List.mem_cons.mp hp with rfl | hp'
      · constructor
        · intro t ht
          rcases List.mem_append.mp ht with ht | ht
          · have := (h (k, e) (List.mem_cons_self _ _)).1 t ht
            simp only
            exact le_trans this (le_max_left _ _)
          · rw [List.mem_singleton.mp ht]
            exact le_max_right _ _
        · obtain ⟨hb, t₀, ht₀mem, ht₀eq⟩ := h (k, e) (List.mem_cons_self _ _)
          rcases le_total s.timestamp e.maxTimestamp with hle | hle
          · refine ⟨t₀, List.mem_append_left _ ht₀mem, ?_⟩
            simp only
            rw [max_eq_left hle]
            exact ht₀eq
          · refine ⟨s, List.mem_append_right _ (List.mem_singleton_self s), ?_⟩
            simp only
            rw [max_eq_right hle]
      · exact h p (List.mem_cons_of_mem _ hp')
    · simp only [addToGroups, if_neg hk] at hp
      rcases List.mem_cons.mp hp with rfl | hp'
      · exact h (k, e) (List.mem_cons_self _ _)
      · exact ih (fun q hq => h q (List.mem_cons_of_mem _ hq)) p hp'

/-- Every entry the partition pass produces attains its `maxTimestamp`. -/
theorem collectGroupsSingles_max_inv (l : List SessionRecord) :
    ∀ p ∈ (collectGroupsSingles l).1,
      (∀ t ∈ p.2.sessions, t.timestamp ≤ p.2.maxTimestamp) ∧
      ∃ t ∈ p.2.sessions, t.timestamp = p.2.maxTimestamp := by
  have key : ∀ (ms : List SessionRecord)
      (acc : List (String × GroupEntry) × List SessionRecord),
      (∀ p ∈ acc.1, (∀ t ∈ p.2.sessions, t.timestamp ≤ p.2.maxTimestamp) ∧
        ∃ t ∈ p.2.sessions, t.timestamp = p.2.maxTimestamp) →
      ∀ p ∈ (ms.foldl collectStep acc).1,
        (∀ t ∈ p.2.sessions, t.timestamp ≤ p.2.maxTimestamp) ∧
        ∃ t ∈ p.2.sessions, t.timestamp = p.2.maxTimestamp := by
    intro ms
    induction ms with
    | nil => intro acc hacc; exact hacc
    | cons s rest ih =>
      intro acc hacc
      rw [List.foldl_cons]
      refine ih (collectStep acc s) ?_
      by_cases hm : jsTrim s.branchMarker ≠ ""
      · rw [collectStep, if_pos hm]
        exact addToGroups_max_inv acc.1 _ s hacc
      · rw [collectStep, if_neg hm]
        exact hacc
  exact key l ([], []) (by simp)

/-- `orderSessionsByBranch` emits a permutation of its input. -/
theorem orderSessionsByBranch_perm (l : List SessionRecord) :
    (orderSessionsByBranch l).Perm l := by
  refine (mergeGS_perm (sortedGroupEntries l) (sortedSingles l)).trans ?_
  have h₁ : (((sortedGroupEntries l).map (fun g => g.sessions)).flatten).Perm
      (((collectGroupsSingles l).1.map (fun p => p.2.sessions)).flatten) := by
    have hp : ((sortedGroupEntries l).map (fun g => g.sessions)).Perm
        (((collectGroupsSingles l).1.map
          (fun p => { sessions := sortSessionsDesc p.2.sessions,
                      maxTimestamp := p.2.maxTimestamp : GroupEntry })).map
          (fun g => g.sessions)) :=
      List.Perm.map _ (List.perm_insertionSort _ _)
    refine (List.Perm.flatten hp).trans ?_
    rw [List.map_map]
    exact flatten_map_sortDesc_perm (collectGroupsSingles l).1
  have h₂ : (sortedSingles l).Perm (collectGroupsSingles l).2 :=
    List.perm_insertionSort _ _
  exact (List.Perm.append h₁ h₂).trans (collectGroupsSingles_perm l)

/-- C4: `orderSessionsByBranch` permutes its input; each fork-group entry is
emitted as one contiguous block whose members are sorted descending by
timestamp and whose representative timestamp is the attained maximum of its
members; the group entries are processed in descending representative order
and singles in descending timestamp order; the spec's four-session example
yields S1, A, B, S2; and on a representative-timestamp tie the group block
is emitted before the single. -/
theorem c4_order_sessions_by_branch (l : List SessionRecord) :
    (orderSessionsByBranch l).Perm l ∧
    (∀ g ∈ sortedGroupEntries l,
      (∃ pre post, orderSessionsByBranch l = pre ++ g.sessions ++ post) ∧
      g.sessions.Sorted (fun a b => b.timestamp ≤ a.timestamp) ∧
      (∀ t ∈ g.sessions, t.timestamp ≤ g.maxTimestamp) ∧
      ∃ t ∈ g.sessions, t.timestamp = g.maxTimestamp) ∧
    (sortedGroupEntries l).Sorted (fun a b => b.maxTimestamp ≤ a.maxTimestamp) ∧
    (sortedSingles l).Sorted (fun a b => b.timestamp ≤ a.timestamp) ∧
    orderSessionsByBranch fxOrderExample =
      [fxSession "S1" 100 none " " fxUsage10,
       fxSession "A" 90 (some "g") "┌" fxUsage10b,
       fxSession "B" 70 (some "g") "┴" fxUsage3,
       fxSession "S2" 50 none " " fxUsage3] ∧
    orderSessionsByBranch fxTieExample =
      [fxSession "G" 100 (some "h") "┴" fxUsage3,
       fxSession "S1" 100 none " " fxUsage10] := by
  refine ⟨orderSessionsByBranch_perm l, ?_, ?_, ?_, by decide, by decide⟩
  · -- per-group facts
    intro g hg
    have hmem : g ∈ ((collectGroupsSingles l).1.map
        (fun p => { sessions := sortSessionsDesc p.2.sessions,
                    maxTimestamp := p.2.maxTimestamp : GroupEntry })) :=
      (List.perm_insertionSort _ _).mem_iff.mp hg
    obtain ⟨p, hpmem, hpg⟩ := List.mem_map.mp hmem
    obtain ⟨hb, t₀, ht₀mem, ht₀eq⟩ := collectGroupsSingles_max_inv l p hpmem
    refine ⟨mergeGS_block _ _ g hg, ?_, ?_, ?_⟩
    · rw [← hpg]
      exact sortSessionsDesc_sorted p.2.sessions
    · intro t ht
      rw [← hpg] at ht ⊢
      exact hb t ((sortSessionsDesc_perm _).mem_iff.mp ht)
    · rw [← hpg]
      exact ⟨t₀, (sortSessionsDesc_perm _).mem_iff.mpr ht₀mem, ht₀eq⟩
  · -- group entries sorted by representative timestamp
    haveI : IsTotal GroupEntry (fun a b => b.maxTimestamp ≤ a.maxTimestamp) :=
      ⟨fun a b => le_total _ _⟩
    haveI : IsTrans GroupEntry (fun a b => b.maxTimestamp ≤ a.maxTimestamp) :=
      ⟨fun a b c hab hbc => le_trans hbc hab⟩
    exact List.sorted_insertionSort _ _
  · exact sortSessionsDesc_sorted _

/-! ## C8: zero-usage sessions are invisible and free -/

/-- C8: a session whose four canonical token fields are all zero never
appears in the visible session list (the post-ordering filter both scanners
apply), every visible session has some usage, and both reported totals range
only over the usage-bearing sessions — so a zero-usage session contributes
0 to the total blended-token sum and to the total cost, whatever the pricing
collaborator returns. -/
theorem c8_zero_usage_invisible (l : List SessionRecord) (s : SessionRecord)
    (cost : SessionRecord → ℚ)
    (hz : s.tokenUsage.inputTokens = 0 ∧ s.tokenUsage.cachedInputTokens = 0 ∧
      s.tokenUsage.outputTokens = 0 ∧ s.tokenUsage.reasoningOutputTokens = 0) :
    s ∉ visibleSessions l ∧
    (∀ t ∈ visibleSessions l, hasAnyTokenUsage t.tokenUsage = true) ∧
    totalBlendedTokens l =
      ((l.filter (fun t => hasAnyTokenUsage t.tokenUsage)).map
        (fun t => t.blendedTokens)).sum ∧
    totalCostUsd cost l =
      ((l.filter (fun t => hasAnyTokenUsage t.tokenUsage)).map cost).sum := by
  obtain ⟨h1, h2, h3, h4⟩ := hz
  have hfalse : hasAnyTokenUsage s.tokenUsage = false := by
    simp [hasAnyTokenUsage, h1, h2, h3, h4]
  have hperm : (visibleSessions l).Perm
      (l.filter (fun t => hasAnyTokenUsage t.tokenUsage)) :=
    (orderSessionsByBranch_perm l).filter _
  refine ⟨?_, ?_, ?_, ?_⟩
  · intro hmem
    have hmem' : s ∈ (orderSessionsByBranch l).filter
        (fun t => hasAnyTokenUsage t.tokenUsage) := hmem
    have := (List.mem_filter.mp hmem').2
    rw [hfalse] at this
    exact Bool.false_ne_true this
  · intro t ht
    have ht' : t ∈ (orderSessionsByBranch l).filter
        (fun t => hasAnyTokenUsage t.tokenUsage) := ht
    exact (List.mem_filter.mp ht').2
  · exact (hperm.map (fun t => t.blendedTokens)).sum_eq
  · exact (hperm.map cost).sum_eq

/-- Witness for C8 at a list holding the all-zero fixture session and one
usage-bearing session, with the constant-1 cost function. -/
theorem c8_zero_usage_invisible_witness :
    (fxZeroSession.tokenUsage.inputTokens = 0 ∧
      fxZeroSession.tokenUsage.cachedInputTokens = 0 ∧
      fxZeroSession.tokenUsage.outputTokens = 0 ∧
      fxZeroSession.tokenUsage.reasoningOutputTokens = 0) ∧
    (fxZeroSession ∉ visibleSessions [fxZeroSession, fxSession "ok" 10 none " " fxUsage3] ∧
    (∀ t ∈ visibleSessions [fxZeroSession, fxSession "ok" 10 none " " fxUsage3],
      hasAnyTokenUsage t.tokenUsage = true) ∧
    totalBlendedTokens [fxZeroSession, fxSession "ok" 10 none " " fxUsage3] =
      (([fxZeroSession, fxSession "ok" 10 none " " fxUsage3].filter
        (fun t => hasAnyTokenUsage t.tokenUsage)).map
          (fun t => t.blendedTokens)).sum ∧
    totalCostUsd (fun _ => (1 : ℚ)) [fxZeroSession, fxSession "ok" 10 none " " fxUsage3] =
      (([fxZeroSession, fxSession "ok" 10 none " " fxUsage3].filter
        (fun t => hasAnyTokenUsage t.tokenUsage)).map (fun _ => (1 : ℚ))).sum) :=
  ⟨⟨rfl, rfl, rfl, rfl⟩,
    c8_zero_usage_invisible [fxZeroSession, fxSession "ok" 10 none " " fxUsage3]
      fxZeroSession (fun _ => (1 : ℚ)) ⟨rfl, rfl, rfl, rfl⟩⟩

/-! ## C9: transcript reconstruction terminates -/

/-- The backward walk is insensitive to its fuel once the fuel exceeds the
number of ids it could ever visit: each step consumes one fresh id from the
finite `allowed` universe. -/
theorem buildTranscriptAux_congr (messages : List ClaudeMessageRecord)
    (allowed : Finset String) (hmsgs : ∀ m ∈ messages, m.uuid ∈ allowed) :
    ∀ (f₁ : Nat), ∀ (f₂ : Nat) (visited : List String) (cur : ClaudeMessageRecord),
      cur.uuid ∈ allowed → (∀ v ∈ visited, v ∈ allowed) → visited.Nodup →
      allowed.card < f₁ + visited.length → allowed.card < f₂ + visited.length →
      buildTranscriptAux messages f₁ visited cur =
        buildTranscriptAux messages f₂ visited cur := by
  intro f₁
  induction f₁ with
  | zero =>
    intro f₂ visited cur _ hvis hnd hb₁ _
    exfalso
    have hsub : visited.toFinset ⊆ allowed := by
      intro v hv
      exact hvis v (List.mem_toFinset.mp hv)
    have hlen : visited.length ≤ allowed.card := by
      rw [← List.toFinset_card_of_nodup hnd]
      exact Finset.card_le_card hsub
    omega
  | succ f ih =>
    intro f₂ visited cur hcur hvis hnd hb₁ hb₂
    cases f₂ with
    | zero =>
      exfalso
      have hsub : visited.toFinset ⊆ allowed := by
        intro v hv
        exact hvis v (List.mem_toFinset.mp hv)
      have hlen : visited.length ≤ allowed.card := by
        rw [← List.toFinset_card_of_nodup hnd]
        exact Finset.card_le_card hsub
      omega
    | succ f₂' =>
      show (if cur.uuid ∈ visited then [] else
          cur :: (match truthyParent cur with
            | none => []
            | some parentUuid =>
              match findMessage messages parentUuid with
              | none => []
              | some nxt =>
                buildTranscriptAux messages f (cur.uuid :: visited) nxt)) =
        (if cur.uuid ∈ visited then [] else
          cur :: (match truthyParent cur with
            | none => []
            | some parentUuid =>
              match findMessage messages parentUuid with
              | none => []
              | some nxt =>
                buildTranscriptAux messages f₂' (cur.uuid :: visited) nxt))
      by_cases hin : cur.uuid ∈ visited
      · rw [if_pos hin, if_pos hin]
      · rw [if_neg hin, if_neg hin]
        rcases htp : truthyParent cur with _ | p
        · rfl
        · rcases hfm : findMessage messages p with _ | nxt
          · simp only [hfm]
          · simp only [hfm]
            have hnxt : nxt ∈ messages :=
              List.mem_of_find?_eq_some hfm
            have hcongr := ih f₂' (cur.uuid :: visited) nxt
              (hmsgs nxt hnxt)
              (by
                intro v hv
                rcases List.mem_cons.mp hv with rfl | hv
                · exact hcur
                · exact hvis v hv)
              (List.nodup_cons.mpr ⟨hin, hnd⟩)
              (by simp only [List.length_cons]; omega)
              (by simp only [List.length_cons]; omega)
            simp only [hcongr]

/-- The walk never records the same uuid twice, and records nothing already
visited. -/
theorem buildTranscriptAux_nodup (messages : List ClaudeMessageRecord) :
    ∀ (fuel : Nat) (visited : List String) (cur : ClaudeMessageRecord),
      ((buildTranscriptAux messages fuel visited cur).map (fun m => m.uuid)).Nodup ∧
      ∀ u ∈ (buildTranscriptAux messages fuel visited cur).map (fun m => m.uuid),
        u ∉ visited := by
  intro fuel
  induction fuel with
  | zero => intro visited cur; simp [buildTranscriptAux]
  | succ f ih =>
    intro visited cur
    have hunf : buildTranscriptAux messages (f + 1) visited cur =
        (if cur.uuid ∈ visited then [] else
          cur :: (match truthyParent cur with
            | none => []
            | some parentUuid =>
              match findMessage messages parentUuid with
              | none => []
              | some nxt =>
                buildTranscriptAux messages f (cur.uuid :: visited) nxt)) := rfl
    rw [hunf]
    by_cases hin : cur.uuid ∈ visited
    · rw [if_pos hin]
      simp
    · rw [if_neg hin]
      rcases htp : truthyParent cur with _ | p
      · simp [hin]
      · rcases hfm : findMessage messages p with _ | nxt
        · simp [hfm, hin]
        · simp only [hfm]
          obtain ⟨hnd, hdisj⟩ := ih (cur.uuid :: visited) nxt
          constructor
          · rw [List.map_cons]
            refine List.nodup_cons.mpr ⟨?_, hnd⟩
            intro hmem
            exact hdisj cur.uuid hmem (List.mem_cons_self _ _)
          · intro u hu
            rw [List.map_cons] at hu
            rcases List.mem_cons.mp hu with rfl | hu
            · exact hin
            · intro huv
              exact hdisj u hu (List.mem_cons_of_mem _ huv)

/-- C9: backward transcript reconstruction terminates on every message map:
with fuel at least `buildTranscriptFuel` (one per possibly-visited id) the
walk's result no longer depends on the fuel — the loop always reaches a
missing parent, a falsy parent pointer, or an id already visited — and the
resulting (possibly truncated) transcript never repeats an id, so a cyclic
parent chain yields a finite partial transcript. -/
theorem c9_build_transcript_terminates (messages : List ClaudeMessageRecord)
    (leaf : ClaudeMessageRecord) (fuel : Nat)
    (h : buildTranscriptFuel messages ≤ fuel) :
    buildTranscriptAux messages fuel [] leaf =
      buildTranscriptAux messages (buildTranscriptFuel messages) [] leaf ∧
    ((buildTranscriptAux messages fuel [] leaf).map (fun m => m.uuid)).Nodup := by
  constructor
  · apply buildTranscriptAux_congr messages
      (insert leaf.uuid (messages.map (fun m => m.uuid)).toFinset)
    · intro m hm
      exact Finset.mem_insert_of_mem (List.mem_toFinset.mpr
        (List.mem_map.mpr ⟨m, hm, rfl⟩))
    · exact Finset.mem_insert_self _ _
    · intro v hv
      exact absurd hv (List.not_mem_nil v)
    · exact List.nodup_nil
    · have h₁ := Finset.card_insert_le leaf.uuid
        ((messages.map (fun m => m.uuid)).toFinset)
      have h₂ := (messages.map (fun m => m.uuid)).toFinset_card_le
      rw [List.length_map] at h₂
      rw [buildTranscriptFuel] at h
      simp only [List.length_nil]
      omega
    · have h₁ := Finset.card_insert_le leaf.uuid
        ((messages.map (fun m => m.uuid)).toFinset)
      have h₂ := (messages.map (fun m => m.uuid)).toFinset_card_le
      rw [List.length_map] at h₂
      rw [buildTranscriptFuel]
      simp only [List.length_nil]
      omega
  · exact (buildTranscriptAux_nodup messages fuel [] leaf).1

/-- Witness for C9 at the two-message parent cycle with surplus fuel: the
walk truncates at the repeated id. -/
theorem c9_build_transcript_terminates_witness :
    buildTranscriptFuel [fxCycleA, fxCycleB] ≤ 10 ∧
    (buildTranscriptAux [fxCycleA, fxCycleB] 10 [] fxCycleA =
      buildTranscriptAux [fxCycleA, fxCycleB]
        (buildTranscriptFuel [fxCycleA, fxCycleB]) [] fxCycleA ∧
    ((buildTranscriptAux [fxCycleA, fxCycleB] 10 [] fxCycleA).map
      (fun m => m.uuid)).Nodup) :=
  ⟨by decide,
    c9_build_transcript_terminates [fxCycleA, fxCycleB] fxCycleA 10 (by decide)⟩

/-! ## C2 and C10: cross-session usage deduplication and leaf ordering -/

/-- `upsertByKey` keeps the association list's keys distinct, keeps each
stored message's usage key equal to its stored key, and introduces no key
beyond the inserted one. -/
theorem upsertByKey_inv (acc : List (String × ClaudeMessageRecord)) (key : String)
    (message : ClaudeMessageRecord) (hkey : getAssistantUsageKey message = key)
    (h1 : (acc.map (fun p => p.1)).Nodup)
    (h2 : ∀ p ∈ acc, getAssistantUsageKey p.2 = p.1) :
    ((upsertByKey acc key message).map (fun p => p.1)).Nodup ∧
    (∀ p ∈ upsertByKey acc key message, getAssistantUsageKey p.2 = p.1) ∧
    (∀ p ∈ upsertByKey acc key message,
      p.1 ∈ acc.map (fun p => p.1) ∨ p.1 = key) := by
  induction acc with
  | nil =>
    refine ⟨by simp [upsertByKey], ?_, ?_⟩
    · intro p hp
      rw [List.mem_singleton.mp hp]
      exact hkey
    · intro p hp
      right
      rw [List.mem_singleton.mp hp]
  | cons q rest ih =>
    obtain ⟨k, v⟩ := q
    simp only [List.map_cons, List.nodup_cons] at h1
    by_cases hk : k = key
    · simp only [upsertByKey, if_pos hk]
      refine ⟨?_, ?_, ?_⟩
      · simp only [List.map_cons, List.nodup_cons]
        exact h1
      · intro p hp
        rcases List.mem_cons.mp hp with rfl | hp'
        · simpa [hk] using hkey
        · exact h2 p (List.mem_cons_of_mem _ hp')
      · intro p hp
        rcases List.mem_cons.mp hp with rfl | hp'
        · simp
        · exact Or.inl (by
            simp only [List.map_cons, List.mem_cons]
            exact Or.inr (List.mem_map.mpr ⟨p, hp', rfl⟩))
    · simp only [upsertByKey, if_neg hk]
      obtain ⟨ihn, ihk, ihsub⟩ := ih h1.2 (fun p hp => h2 p (List.mem_cons_of_mem _ hp))
      refine ⟨?_, ?_, ?_⟩
      · simp only [List.map_cons, List.nodup_cons]
        refine ⟨?_, ihn⟩
        intro hmem
        rcases List.mem_map.mp hmem with ⟨p, hp', hpk⟩
        rcases ihsub p hp' with hin | hkeq
        · rw [hpk] at hin
          exact h1.1 hin
        · rw [hpk] at hkeq
          exact hk hkeq
      · intro p hp
        rcases List.mem_cons.mp hp with rfl | hp'
        · exact h2 (k, v) (List.mem_cons_self _ _)
        · exact ihk p hp'
      · intro p hp
        rcases List.mem_cons.mp hp with rfl | hp'
        · exact Or.inl (by simp)
        · rcases ihsub p hp' with hin | hkeq
          · exact Or.inl (by
              simp only [List.map_cons, List.mem_cons]
              exact Or.inr hin)
          · exact Or.inr hkeq

/-- The keys of the usage messages collected from a transcript are pairwise
distinct (the JS `Map` deduplicates within one transcript). -/
theorem collectAssistant_keys_nodup (transcript : List ClaudeMessageRecord) :
    ((collectAssistantUsageMessages transcript).map getAssistantUsageKey).Nodup := by
  have key : ∀ (ms : List ClaudeMessageRecord)
      (acc : List (String × ClaudeMessageRecord)),
      (acc.map (fun p => p.1)).Nodup →
      (∀ p ∈ acc, getAssistantUsageKey p.2 = p.1) →
      (((ms.foldl
        (fun acc message =>
          if message.type = "assistant" ∧ message.usage.isSome then
            upsertByKey acc (getAssistantUsageKey message) message
          else acc) acc).map (fun p => p.1)).Nodup ∧
        ∀ p ∈ ms.foldl
          (fun acc message =>
            if message.type = "assistant" ∧ message.usage.isSome then
              upsertByKey acc (getAssistantUsageKey message) message
            else acc) acc, getAssistantUsageKey p.2 = p.1) := by
    intro ms
    induction ms with
    | nil => intro acc h1 h2; exact ⟨h1, h2⟩
    | cons m rest ih =>
      intro acc h1 h2
      rw [List.foldl_cons]
      by_cases hm : m.type = "assistant" ∧ m.usage.isSome
      · rw [if_pos hm]
        obtain ⟨u1, u2, _⟩ := upsertByKey_inv acc (getAssistantUsageKey m) m rfl h1 h2
        exact ih _ u1 u2
      · rw [if_neg hm]
        exact ih acc h1 h2
  obtain ⟨h1, h2⟩ := key transcript [] (by simp) (by simp)
  rw [collectAssistantUsageMessages, List.map_map]
  have : (fun p : String × ClaudeMessageRecord => getAssistantUsageKey p.2) =
      fun p : String × ClaudeMessageRecord => (getAssistantUsageKey ∘ fun p => p.2) p := rfl
  rw [show ((transcript.foldl
      (fun acc message =>
        if message.type = "assistant" ∧ message.usage.isSome then
          upsertByKey acc (getAssistantUsageKey message) message
        else acc) []).map (getAssistantUsageKey ∘ fun p => p.2)) =
      ((transcript.foldl
      (fun acc message =>
        if message.type = "assistant" ∧ message.usage.isSome then
          upsertByKey acc (getAssistantUsageKey message) message
        else acc) []).map (fun p => p.1)) from List.map_congr_left (fun p hp => h2 p hp)]
  exact h1

/-- Keying messages, filtering by key, and projecting keys is filtering the
key list. -/
theorem map_fst_filter_keys (l : List ClaudeMessageRecord) (p : String → Bool) :
    (((l.map (fun m => (getAssistantUsageKey m, m))).filter
      (fun q => p q.1)).map (fun q => q.1)) =
      (l.map getAssistantUsageKey).filter p := by
  induction l with
  | nil => rfl
  | cons m rest ih =>
    simp only [List.map_cons, List.filter_cons]
    by_cases hp : p (getAssistantUsageKey m)
    · simp only [hp, if_pos]
      simp only [List.map_cons, ih]
    · simp only [hp]
      simp only [Bool.false_eq_true, if_neg, ih]
      simp [ih]

/-- `createSessionSummary` keeps the leaf uuid as the session id. -/
theorem createSessionSummary_id (summarizer : ClaudeMessageRecord → Option String)
    (leaf : ClaudeMessageRecord) (transcript usageMessages : List ClaudeMessageRecord)
    (fileMtime : Option Int) (session : SessionRecord)
    (h : createSessionSummary summarizer leaf transcript usageMessages fileMtime =
      some session) : session.id = leaf.uuid := by
  rw [createSessionSummary] at h
  rcases hmt : claudeSessionTimestamp leaf fileMtime with _ | ts
  · simp only [hmt] at h
    exact Option.noConfusion h
  · simp only [hmt] at h
    by_cases he : usageMessages.isEmpty
    · rw [if_pos he] at h
      simp at h
    · rw [if_neg he] at h
      have heq := Option.some.inj h
      rw [← heq]

/-- Projection form of `map_fst_filter_keys` at the dedup-set predicate. -/
theorem map_fst_filter_notmem (l : List ClaudeMessageRecord) (g : List String) :
    (((l.map (fun m => (getAssistantUsageKey m, m))).filter
      (fun p => p.1 ∉ g)).map (fun p => p.1)) =
      (l.map getAssistantUsageKey).filter (fun k => k ∉ g) :=
  map_fst_filter_keys l (fun k => decide (k ∉ g))

/-- One step of the leaf loop either rejects the leaf, leaving the state
unchanged, or appends exactly one session entry consuming the transcript's
not-yet-consumed usage keys. -/
theorem processLeaf_shape (messages : List ClaudeMessageRecord)
    (summarizer : ClaudeMessageRecord → Option String)
    (fileMtime : String → Option Int) (st : ClaudeScanState)
    (leaf : ClaudeMessageRecord) :
    processLeaf messages summarizer fileMtime st leaf = st ∨
    ∃ transcript session,
      buildTranscript leaf messages = some transcript ∧
      session.id = leaf.uuid ∧
      leaf.uuid ∉ st.seenSessions ∧
      processLeaf messages summarizer fileMtime st leaf =
        { sessions := st.sessions ++
            [{ session := session,
               usedKeys := (((collectAssistantUsageMessages transcript).map
                 (fun m => (getAssistantUsageKey m, m))).filter
                   (fun p => p.1 ∉ st.globalMessageKeys)).map (fun p => p.1),
               usageMessages := (((collectAssistantUsageMessages transcript).map
                 (fun m => (getAssistantUsageKey m, m))).filter
                   (fun p => p.1 ∉ st.globalMessageKeys)).map (fun p => p.2) }],
          seenSessions := st.seenSessions ++ [leaf.uuid],
          globalMessageKeys := st.globalMessageKeys ++
            (((collectAssistantUsageMessages transcript).map
              (fun m => (getAssistantUsageKey m, m))).filter
                (fun p => p.1 ∉ st.globalMessageKeys)).map (fun p => p.1) } := by
  by_cases h0 : leaf.uuid ∈ st.seenSessions
  · left
    rw [processLeaf, if_pos h0]
  · rcases hbt : buildTranscript leaf messages with _ | transcript
    · left
      rw [processLeaf, if_neg h0]
      simp only [hbt]
    · by_cases h1 : (transcript.filter (fun m => m.type ≠ "summary")).isEmpty
      · left
        rw [processLeaf, if_neg h0]
        simp only [hbt]
        rw [if_pos h1]
      · by_cases h2 : ¬ (transcript.filter (fun m => m.type ≠ "summary")).any
          (fun m => ¬ m.isSidechain)
        · left
          rw [processLeaf, if_neg h0]
          simp only [hbt]
          rw [if_neg h1, if_pos h2]
        · by_cases h3 : (((collectAssistantUsageMessages transcript).map
              (fun m => (getAssistantUsageKey m, m))).filter
                (fun p => p.1 ∉ st.globalMessageKeys)).isEmpty
          · left
            rw [processLeaf, if_neg h0]
            simp only [hbt]
            rw [if_neg h1, if_neg h2, if_pos h3]
          · rcases hcs : createSessionSummary summarizer leaf transcript
                ((((collectAssistantUsageMessages transcript).map
                  (fun m => (getAssistantUsageKey m, m))).filter
                    (fun p => p.1 ∉ st.globalMessageKeys)).map (fun p => p.2))
                (fileMtime leaf.uuid) with _ | session
            · left
              rw [processLeaf, if_neg h0]
              simp only [hbt]
              rw [if_neg h1, if_neg h2, if_neg h3]
              simp only [hcs]
            · right
              refine ⟨transcript, session, rfl,
                createSessionSummary_id _ _ _ _ _ _ hcs, h0, ?_⟩
              rw [processLeaf, if_neg h0]
              simp only [hbt]
              rw [if_neg h1, if_neg h2, if_neg h3]
              simp only [hcs]
              rw [createSessionSummary_id summarizer leaf transcript _ _ session hcs]

/-- The leaf loop only appends to the produced session list. -/
theorem processLeaves_sessions_prefix (messages : List ClaudeMessageRecord)
    (summarizer : ClaudeMessageRecord → Option String)
    (fileMtime : String → Option Int) :
    ∀ (leaves : List ClaudeMessageRecord) (st : ClaudeScanState),
      ∃ suf, (leaves.foldl (processLeaf messages summarizer fileMtime) st).sessions =
        st.sessions ++ suf := by
  intro leaves
  induction leaves with
  | nil => intro st; exact ⟨[], by simp⟩
  | cons leaf rest ih =>
    intro st
    rw [List.foldl_cons]
    rcases processLeaf_shape messages summarizer fileMtime st leaf with hsame | hnew
    · rw [hsame]
      exact ih st
    · obtain ⟨transcript, session, _, _, _, heq⟩ := hnew
      rw [heq]
      obtain ⟨suf, hsuf⟩ := ih
        { sessions := st.sessions ++
            [{ session := session,
               usedKeys := (((collectAssistantUsageMessages transcript).map
                 (fun m => (getAssistantUsageKey m, m))).filter
                   (fun p => p.1 ∉ st.globalMessageKeys)).map (fun p => p.1),
               usageMessages := (((collectAssistantUsageMessages transcript).map
                 (fun m => (getAssistantUsageKey m, m))).filter
                   (fun p => p.1 ∉ st.globalMessageKeys)).map (fun p => p.2) }],
          seenSessions := st.seenSessions ++ [leaf.uuid],
          globalMessageKeys := st.globalMessageKeys ++
            (((collectAssistantUsageMessages transcript).map
              (fun m => (getAssistantUsageKey m, m))).filter
                (fun p => p.1 ∉ st.globalMessageKeys)).map (fun p => p.1) }
      refine ⟨⟨session,
          (((collectAssistantUsageMessages transcript).map
            (fun m => (getAssistantUsageKey m, m))).filter
              (fun p => p.1 ∉ st.globalMessageKeys)).map (fun p => p.1),
          (((collectAssistantUsageMessages transcript).map
            (fun m => (getAssistantUsageKey m, m))).filter
              (fun p => p.1 ∉ st.globalMessageKeys)).map (fun p => p.2)⟩ :: suf, ?_⟩
      rw [hsuf]
      simp only
      rw [List.append_assoc]
      rfl

/-- Every key in the dedup set after the loop was either there before or is
a usage key of some processed leaf's reconstructed transcript. -/
theorem processLeaves_global_origin (messages : List ClaudeMessageRecord)
    (summarizer : ClaudeMessageRecord → Option String)
    (fileMtime : String → Option Int) :
    ∀ (leaves : List ClaudeMessageRecord) (st : ClaudeScanState) (k : String),
      k ∈ (leaves.foldl (processLeaf messages summarizer fileMtime)
        st).globalMessageKeys →
      k ∈ st.globalMessageKeys ∨
      ∃ C ∈ leaves, ∃ tC, buildTranscript C messages = some tC ∧
        k ∈ (collectAssistantUsageMessages tC).map getAssistantUsageKey := by
  intro leaves
  induction leaves with
  | nil => intro st k hk; exact Or.inl hk
  | cons leaf rest ih =>
    intro st k hk
    rw [List.foldl_cons] at hk
    rcases ih (processLeaf messages summarizer fileMtime st leaf) k hk with hin | hrest
    · rcases processLeaf_shape messages summarizer fileMtime st leaf with hsame | hnew
      · rw [hsame] at hin
        exact Or.inl hin
      · obtain ⟨transcript, session, hbt, _, _, heq⟩ := hnew
        rw [heq] at hin
        simp only at hin
        rcases List.mem_append.mp hin with hin | hin
        · exact Or.inl hin
        · rcases List.mem_map.mp hin with ⟨p, hp, rfl⟩
          have hp' := List.mem_filter.mp hp
          rcases List.mem_map.mp hp'.1 with ⟨m, hm, rfl⟩
          exact Or.inr ⟨leaf, List.mem_cons_self _ _, transcript, hbt,
            List.mem_map.mpr ⟨m, hm, rfl⟩⟩
    · obtain ⟨C, hC, tC, htC, hkC⟩ := hrest
      exact Or.inr ⟨C, List.mem_cons_of_mem _ hC, tC, htC, hkC⟩

/-- Every id marked seen after the loop was seen before or is a processed
leaf's uuid. -/
theorem processLeaves_seen_origin (messages : List ClaudeMessageRecord)
    (summarizer : ClaudeMessageRecord → Option String)
    (fileMtime : String → Option Int) :
    ∀ (leaves : List ClaudeMessageRecord) (st : ClaudeScanState) (u : String),
      u ∈ (leaves.foldl (processLeaf messages summarizer fileMtime)
        st).seenSessions →
      u ∈ st.seenSessions ∨ ∃ C ∈ leaves, u = C.uuid := by
  intro leaves
  induction leaves with
  | nil => intro st u hu; exact Or.inl hu
  | cons leaf rest ih =>
    intro st u hu
    rw [List.foldl_cons] at hu
    rcases ih (processLeaf messages summarizer fileMtime st leaf) u hu with hin | hrest
    · rcases processLeaf_shape messages summarizer fileMtime st leaf with hsame | hnew
      · rw [hsame] at hin
        exact Or.inl hin
      · obtain ⟨transcript, session, _, _, _, heq⟩ := hnew
        rw [heq] at hin
        simp only at hin
        rcases List.mem_append.mp hin with hin | hin
        · exact Or.inl hin
        · exact Or.inr ⟨leaf, List.mem_cons_self _ _, List.mem_singleton.mp hin⟩
    · obtain ⟨C, hC, hCu⟩ := hrest
      exact Or.inr ⟨C, List.mem_cons_of_mem _ hC, hCu⟩

/-- The core deduplication invariant of the leaf loop: the concatenation of
all produced sessions' consumed keys stays duplicate-free, and every
consumed key is recorded in the dedup set. -/
theorem processLeaves_joined_nodup (messages : List ClaudeMessageRecord)
    (summarizer : ClaudeMessageRecord → Option String)
    (fileMtime : String → Option Int) :
    ∀ (leaves : List ClaudeMessageRecord) (st : ClaudeScanState),
      ((st.sessions.map (fun e => e.usedKeys)).flatten).Nodup →
      (∀ k ∈ (st.sessions.map (fun e => e.usedKeys)).flatten,
        k ∈ st.globalMessageKeys) →
      (((leaves.foldl (processLeaf messages summarizer fileMtime)
        st).sessions.map (fun e => e.usedKeys)).flatten).Nodup ∧
      (∀ k ∈ ((leaves.foldl (processLeaf messages summarizer fileMtime)
          st).sessions.map (fun e => e.usedKeys)).flatten,
        k ∈ (leaves.foldl (processLeaf messages summarizer fileMtime)
          st).globalMessageKeys) := by
  intro leaves
  induction leaves with
  | nil => intro st h1 h2; exact ⟨h1, h2⟩
  | cons leaf rest ih =>
    intro st h1 h2
    rw [List.foldl_cons]
    rcases processLeaf_shape messages summarizer fileMtime st leaf with hsame | hnew
    · rw [hsame]
      exact ih st h1 h2
    · obtain ⟨transcript, session, _, _, _, heq⟩ := hnew
      rw [heq]
      apply ih
      · simp only [List.map_append, List.flatten_append, List.map_cons,
          List.flatten_cons, List.map_nil, List.flatten_nil, List.append_nil]
        rw [List.nodup_append]
        refine ⟨h1, ?_, ?_⟩
        · rw [map_fst_filter_notmem]
          exact (collectAssistant_keys_nodup transcript).filter _
        · intro k hk hk'
          have hg := h2 k hk
          rw [map_fst_filter_notmem] at hk'
          have := List.of_mem_filter hk'
          simp only [decide_eq_true_eq] at this
          exact this hg
      · intro k hk
        simp only [List.map_append, List.flatten_append, List.map_cons,
          List.flatten_cons, List.map_nil, List.flatten_nil, List.append_nil] at hk
        simp only
        rcases List.mem_append.mp hk with hk | hk
        · exact List.mem_append_left _ (h2 k hk)
        · exact List.mem_append_right _ hk

/-- With a duplicate-free joined key list, a key identifies at most one
session entry. -/
theorem joined_nodup_unique (l : List ClaudeSessionEntry)
    (hnd : ((l.map (fun e => e.usedKeys)).flatten).Nodup) :
    ∀ e₁ ∈ l, ∀ e₂ ∈ l, ∀ k, k ∈ e₁.usedKeys → k ∈ e₂.usedKeys → e₁ = e₂ := by
  induction l with
  | nil => intro e₁ h; exact absurd h (List.not_mem_nil e₁)
  | cons e rest ih =>
    intro e₁ he₁ e₂ he₂ k hk₁ hk₂
    simp only [List.map_cons, List.flatten_cons] at hnd
    rw [List.nodup_append] at hnd
    rcases List.mem_cons.mp he₁ with rfl | h₁ <;>
      rcases List.mem_cons.mp he₂ with rfl | h₂
    · rfl
    · exfalso
      exact hnd.2.2 hk₁ (List.mem_flatten.mpr
        ⟨e₂.usedKeys, List.mem_map.mpr ⟨e₂, h₂, rfl⟩, hk₂⟩)
    · exfalso
      exact hnd.2.2 hk₂ (List.mem_flatten.mpr
        ⟨e₁.usedKeys, List.mem_map.mpr ⟨e₁, h₁, rfl⟩, hk₁⟩)
    · exact ih hnd.2.1 e₁ h₁ e₂ h₂ k hk₁ hk₂

/-- C2: the per-message deduplication key is messageId:requestId when both
are present, else the messageId, else the requestId, else the raw node uuid;
and in one `getClaudeSessions` invocation the consumed usage keys across all
produced sessions are pairwise distinct — a usage message whose key was
already consumed is added to no later session, so each key's usage counts
exactly once in the combined totals. -/
theorem c2_usage_key_dedup :
    (∀ (m : ClaudeMessageRecord) (mid rid : String),
      asNonEmptyString m.messageId = some mid →
      asNonEmptyString m.requestId = some rid →
      getAssistantUsageKey m = mid ++ ":" ++ rid) ∧
    (∀ (m : ClaudeMessageRecord) (mid : String),
      asNonEmptyString m.messageId = some mid →
      asNonEmptyString m.requestId = none →
      getAssistantUsageKey m = mid) ∧
    (∀ (m : ClaudeMessageRecord) (rid : String),
      asNonEmptyString m.messageId = none →
      asNonEmptyString m.requestId = some rid →
      getAssistantUsageKey m = rid) ∧
    (∀ m : ClaudeMessageRecord,
      asNonEmptyString m.messageId = none →
      asNonEmptyString m.requestId = none →
      getAssistantUsageKey m = m.uuid) ∧
    (∀ (messages : List ClaudeMessageRecord)
      (summarizer : ClaudeMessageRecord → Option String)
      (fileMtime : String → Option Int),
      (((claudeScan messages summarizer fileMtime).sessions.map
        (fun e => e.usedKeys)).flatten).Nodup ∧
      ∀ e₁ ∈ (claudeScan messages summarizer fileMtime).sessions,
        ∀ e₂ ∈ (claudeScan messages summarizer fileMtime).sessions,
        ∀ k, k ∈ e₁.usedKeys → k ∈ e₂.usedKeys → e₁ = e₂) := by
  refine ⟨?_, ?_, ?_, ?_, ?_⟩
  · intro m mid rid h1 h2
    rw [getAssistantUsageKey, h1, h2]
  · intro m mid h1 h2
    rw [getAssistantUsageKey, h1, h2]
  · intro m rid h1 h2
    rw [getAssistantUsageKey, h1, h2]
  · intro m h1 h2
    rw [getAssistantUsageKey, h1, h2]
  · intro messages summarizer fileMtime
    have h := processLeaves_joined_nodup messages summarizer fileMtime
      (orderLeaves (identifyLeafMessages messages)) initialClaudeScanState
      (by simp [initialClaudeScanState]) (by simp [initialClaudeScanState])
    exact ⟨h.1, joined_nodup_unique _ h.1⟩

/-- Witness for C2 at the shared-assistant fixture forest: the key of the
shared node combines messageId and requestId, and the scan consumes it in
exactly one session. -/
theorem c2_usage_key_dedup_witness :
    (asNonEmptyString fxSharedAssistant.messageId = some "m1" ∧
      asNonEmptyString fxSharedAssistant.requestId = some "r1" ∧
      getAssistantUsageKey fxSharedAssistant = "m1" ++ ":" ++ "r1") ∧
    (((claudeScan fxForest (fun _ => none) (fun _ => none)).sessions.map
      (fun e => e.usedKeys)).flatten).Nodup :=
  ⟨⟨by decide, by decide,
      c2_usage_key_dedup.1 fxSharedAssistant "m1" "r1" (by decide) (by decide)⟩,
    (c2_usage_key_dedup.2.2.2.2 fxForest (fun _ => none) (fun _ => none)).1⟩

/-- `orderedLeaves` is a permutation of the candidate leaves. -/
theorem orderLeaves_perm (leaves : List ClaudeMessageRecord) :
    (orderLeaves leaves).Perm leaves :=
  List.perm_insertionSort _ leaves

/-- `orderedLeaves` is ascending in the parsed leaf timestamp, a missing or
unparsable timestamp sorting as 0. -/
theorem orderLeaves_sorted (leaves : List ClaudeMessageRecord) :
    (orderLeaves leaves).Pairwise (fun a b => tsNumOrZero a ≤ tsNumOrZero b) := by
  haveI : IsTotal ClaudeMessageRecord (fun a b => tsNumOrZero a ≤ tsNumOrZero b) :=
    ⟨fun a b => le_total _ _⟩
  haveI : IsTrans ClaudeMessageRecord (fun a b => tsNumOrZero a ≤ tsNumOrZero b) :=
    ⟨fun a b c hab hbc => le_trans hab hbc⟩
  exact List.sorted_insertionSort _ leaves

/-- `createSessionSummary` succeeds when a session timestamp is available and
at least one usage message was admitted, and the produced session carries the
leaf's uuid as its id. -/
theorem createSessionSummary_some (summarizer : ClaudeMessageRecord → Option String)
    (leaf : ClaudeMessageRecord) (transcript usageMessages : List ClaudeMessageRecord)
    (fileMtime : Option Int) (ts : Int)
    (hts : claudeSessionTimestamp leaf fileMtime = some ts)
    (hne : ¬ usageMessages.isEmpty) :
    createSessionSummary summarizer leaf transcript usageMessages fileMtime =
      some { id := leaf.uuid, timestamp := ts,
             forkSignature := claudeForkSignature summarizer transcript,
             isFork := false, branchMarker := " ",
             tokenUsage := aggregateUsage usageMessages,
             blendedTokens := blendedTokenTotal (aggregateUsage usageMessages),
             model := selectPrimaryModel (aggregateUsageByModel usageMessages) } := by
  rw [createSessionSummary]
  simp only [hts]
  rw [if_neg hne]

/-- C10: `getClaudeSessions` processes candidate leaves in ascending order of
the parsed leaf timestamp, a missing or unparsable timestamp sorting as 0
(the leaf loop folds over the stably sorted leaf list); consequently, when
two leaves' reconstructed transcripts share an assistant usage message whose
key no earlier-or-equally-timestamped other leaf's transcript contains, the
session built from the earlier-timestamped leaf is the one that receives that
message's usage: that session consumes the key, it is the only produced
session holding the key, and in particular no session of the later leaf
holds it. -/
theorem c10_ascending_leaf_priority :
    (∀ messages : List ClaudeMessageRecord,
      (orderLeaves (identifyLeafMessages messages)).Perm
        (identifyLeafMessages messages) ∧
      (orderLeaves (identifyLeafMessages messages)).Pairwise
        (fun a b => tsNumOrZero a ≤ tsNumOrZero b) ∧
      ∀ (summarizer : ClaudeMessageRecord → Option String)
        (fileMtime : String → Option Int),
        claudeScan messages summarizer fileMtime =
          (orderLeaves (identifyLeafMessages messages)).foldl
            (processLeaf messages summarizer fileMtime)
            initialClaudeScanState) ∧
    ∀ (messages : List ClaudeMessageRecord)
      (summarizer : ClaudeMessageRecord → Option String)
      (fileMtime : String → Option Int)
      (A B : ClaudeMessageRecord) (tA tB : List ClaudeMessageRecord)
      (k : String) (ts : Int),
      A ∈ identifyLeafMessages messages →
      B ∈ identifyLeafMessages messages →
      tsNumOrZero A < tsNumOrZero B →
      ((identifyLeafMessages messages).map (fun m => m.uuid)).Nodup →
      buildTranscript A messages = some tA →
      buildTranscript B messages = some tB →
      k ∈ (collectAssistantUsageMessages tA).map getAssistantUsageKey →
      k ∈ (collectAssistantUsageMessages tB).map getAssistantUsageKey →
      (∀ C ∈ identifyLeafMessages messages, C.uuid ≠ A.uuid →
        tsNumOrZero C ≤ tsNumOrZero A →
        ∀ tC, buildTranscript C messages = some tC →
          k ∉ (collectAssistantUsageMessages tC).map getAssistantUsageKey) →
      ¬ (tA.filter (fun m => m.type ≠ "summary")).isEmpty →
      (tA.filter (fun m => m.type ≠ "summary")).any (fun m => ¬ m.isSidechain) →
      claudeSessionTimestamp A (fileMtime A.uuid) = some ts →
      ∃ entry ∈ (claudeScan messages summarizer fileMtime).sessions,
        entry.session.id = A.uuid ∧ k ∈ entry.usedKeys ∧
        (∀ entry' ∈ (claudeScan messages summarizer fileMtime).sessions,
          k ∈ entry'.usedKeys → entry' = entry) ∧
        ∀ entry' ∈ (claudeScan messages summarizer fileMtime).sessions,
          entry'.session.id = B.uuid → k ∉ entry'.usedKeys := by
  constructor
  · intro messages
    exact ⟨orderLeaves_perm _, orderLeaves_sorted _, fun _ _ => rfl⟩
  · intro messages summarizer fileMtime A B tA tB k ts hA hB hABts hnd htA htB
      hkA hkB hfresh hns hsc hts
    have hperm := orderLeaves_perm (identifyLeafMessages messages)
    have hsorted := orderLeaves_sorted (identifyLeafMessages messages)
    have hA_S : A ∈ orderLeaves (identifyLeafMessages messages) :=
      hperm.mem_iff.mpr hA
    obtain ⟨pre, suf, hsplit⟩ := List.append_of_mem hA_S
    have hndS : ((orderLeaves (identifyLeafMessages messages)).map
        (fun m => m.uuid)).Nodup := (hperm.map (fun m => m.uuid)).symm.nodup hnd
    have huuid_pre : ∀ C ∈ pre, C.uuid ≠ A.uuid := by
      intro C hC heq
      rw [hsplit, List.map_append, List.map_cons, List.nodup_append] at hndS
      refine hndS.2.2 (List.mem_map.mpr ⟨C, hC, rfl⟩) ?_
      rw [heq]
      exact List.mem_cons_self _ _
    have htspre : ∀ C ∈ pre, tsNumOrZero C ≤ tsNumOrZero A := by
      intro C hC
      rw [hsplit, List.pairwise_append] at hsorted
      exact hsorted.2.2 C hC A (List.mem_cons_self _ _)
    have hseen1 : A.uuid ∉ (pre.foldl (processLeaf messages summarizer fileMtime)
        initialClaudeScanState).seenSessions := by
      intro h
      rcases processLeaves_seen_origin messages summarizer fileMtime pre
          initialClaudeScanState A.uuid h with h0 | ⟨C, hC, hCu⟩
      · simp [initialClaudeScanState] at h0
      · exact huuid_pre C hC hCu.symm
    have hglob1 : k ∉ (pre.foldl (processLeaf messages summarizer fileMtime)
        initialClaudeScanState).globalMessageKeys := by
      intro h
      rcases processLeaves_global_origin messages summarizer fileMtime pre
          initialClaudeScanState k h with h0 | ⟨C, hC, tC, htC, hkC⟩
      · simp [initialClaudeScanState] at h0
      · have hCl : C ∈ identifyLeafMessages messages := by
          apply hperm.subset
          rw [hsplit]
          exact List.mem_append_left _ hC
        exact hfresh C hCl (huuid_pre C hC) (htspre C hC) tC htC hkC
    obtain ⟨m, hm, hmk⟩ := List.mem_map.mp hkA
    have hpair : (getAssistantUsageKey m, m) ∈
        ((collectAssistantUsageMessages tA).map
          (fun m => (getAssistantUsageKey m, m))).filter
          (fun p => p.1 ∉ (pre.foldl (processLeaf messages summarizer fileMtime)
            initialClaudeScanState).globalMessageKeys) := by
      refine List.mem_filter.mpr ⟨List.mem_map.mpr ⟨m, hm, rfl⟩, ?_⟩
      simp only [decide_eq_true_eq]
      rw [hmk]
      exact hglob1
    have hfe : ¬ (((collectAssistantUsageMessages tA).map
        (fun m => (getAssistantUsageKey m, m))).filter
        (fun p => p.1 ∉ (pre.foldl (processLeaf messages summarizer fileMtime)
          initialClaudeScanState).globalMessageKeys)).isEmpty := by
      intro hempty
      rw [List.isEmpty_iff] at hempty
      rw [hempty] at hpair
      exact List.not_mem_nil _ hpair
    have hne2 : ¬ ((((collectAssistantUsageMessages tA).map
        (fun m => (getAssistantUsageKey m, m))).filter
        (fun p => p.1 ∉ (pre.foldl (processLeaf messages summarizer fileMtime)
          initialClaudeScanState).globalMessageKeys)).map (fun p => p.2)).isEmpty := by
      intro hempty
      rw [List.isEmpty_iff, List.map_eq_nil_iff] at hempty
      rw [hempty] at hpair
      exact List.not_mem_nil _ hpair
    have hcs := createSessionSummary_some summarizer A tA
      ((((collectAssistantUsageMessages tA).map
        (fun m => (getAssistantUsageKey m, m))).filter
        (fun p => p.1 ∉ (pre.foldl (processLeaf messages summarizer fileMtime)
          initialClaudeScanState).globalMessageKeys)).map (fun p => p.2))
      (fileMtime A.uuid) ts hts hne2
    have hstep : ∃ entry : ClaudeSessionEntry,
        processLeaf messages summarizer fileMtime
          (pre.foldl (processLeaf messages summarizer fileMtime)
            initialClaudeScanState) A =
          { sessions := (pre.foldl (processLeaf messages summarizer fileMtime)
              initialClaudeScanState).sessions ++ [entry],
            seenSessions := (pre.foldl (processLeaf messages summarizer fileMtime)
              initialClaudeScanState).seenSessions ++ [A.uuid],
            globalMessageKeys := (pre.foldl (processLeaf messages summarizer
              fileMtime) initialClaudeScanState).globalMessageKeys ++
                entry.usedKeys } ∧
        entry.session.id = A.uuid ∧ k ∈ entry.usedKeys := by
      refine ⟨⟨⟨A.uuid, ts, claudeForkSignature summarizer tA, false, " ",
          aggregateUsage ((((collectAssistantUsageMessages tA).map
            (fun m => (getAssistantUsageKey m, m))).filter
            (fun p => p.1 ∉ (pre.foldl (processLeaf messages summarizer
              fileMtime) initialClaudeScanState).globalMessageKeys)).map
                (fun p => p.2)),
          blendedTokenTotal (aggregateUsage
            ((((collectAssistantUsageMessages tA).map
              (fun m => (getAssistantUsageKey m, m))).filter
              (fun p => p.1 ∉ (pre.foldl (processLeaf messages summarizer
                fileMtime) initialClaudeScanState).globalMessageKeys)).map
                  (fun p => p.2))),
          selectPrimaryModel (aggregateUsageByModel
            ((((collectAssistantUsageMessages tA).map
              (fun m => (getAssistantUsageKey m, m))).filter
              (fun p => p.1 ∉ (pre.foldl (processLeaf messages summarizer
                fileMtime) initialClaudeScanState).globalMessageKeys)).map
                  (fun p => p.2)))⟩,
          (((collectAssistantUsageMessages tA).map
            (fun m => (getAssistantUsageKey m, m))).filter
            (fun p => p.1 ∉ (pre.foldl (processLeaf messages summarizer
              fileMtime) initialClaudeScanState).globalMessageKeys)).map
                (fun p => p.1),
          (((collectAssistantUsageMessages tA).map
            (fun m => (getAssistantUsageKey m, m))).filter
            (fun p => p.1 ∉ (pre.foldl (processLeaf messages summarizer
              fileMtime) initialClaudeScanState).globalMessageKeys)).map
                (fun p => p.2)⟩, ?_, rfl, ?_⟩
      · rw [processLeaf, if_neg hseen1]
        simp only [htA]
        rw [if_neg hns, if_neg (not_not_intro hsc), if_neg hfe]
        simp only [hcs]
      · exact List.mem_map.mpr ⟨(getAssistantUsageKey m, m), hpair, hmk⟩
    obtain ⟨entry, hstepEq, hid, hkey⟩ := hstep
    have hfinal : claudeScan messages summarizer fileMtime =
        suf.foldl (processLeaf messages summarizer fileMtime)
          (processLeaf messages summarizer fileMtime
            (pre.foldl (processLeaf messages summarizer fileMtime)
              initialClaudeScanState) A) := by
      rw [claudeScan, hsplit, List.foldl_append, List.foldl_cons]
    have hmem : entry ∈ (claudeScan messages summarizer fileMtime).sessions := by
      rw [hfinal, hstepEq]
      rcases processLeaves_sessions_prefix messages summarizer fileMtime suf
          { sessions := (pre.foldl (processLeaf messages summarizer fileMtime)
              initialClaudeScanState).sessions ++ [entry],
            seenSessions := (pre.foldl (processLeaf messages summarizer fileMtime)
              initialClaudeScanState).seenSessions ++ [A.uuid],
            globalMessageKeys := (pre.foldl (processLeaf messages summarizer
              fileMtime) initialClaudeScanState).globalMessageKeys ++
                entry.usedKeys } with ⟨suf2, hsuf2⟩
      rw [hsuf2]
      exact List.mem_append_left _ (List.mem_append_right _
        (List.mem_singleton_self _))
    have hnodupF := processLeaves_joined_nodup messages summarizer fileMtime
      (orderLeaves (identifyLeafMessages messages)) initialClaudeScanState
      (by simp [initialClaudeScanState]) (by simp [initialClaudeScanState])
    have huniq : ∀ entry' ∈ (claudeScan messages summarizer fileMtime).sessions,
        k ∈ entry'.usedKeys → entry' = entry := by
      intro entry' hentry' hk'
      exact joined_nodup_unique _ hnodupF.1 entry' hentry' entry hmem k hk' hkey
    have hABuuid : A.uuid ≠ B.uuid := by
      intro he
      have hAB := List.inj_on_of_nodup_map hnd hA hB he
      rw [hAB] at hABts
      exact lt_irrefl _ hABts
    refine ⟨entry, hmem, hid, hkey, huniq, ?_⟩
    intro entry' hentry' hid' hk'
    have he := huniq entry' hentry' hk'
    rw [he] at hid'
    rw [hid] at hid'
    exact hABuuid hid'

/-- Witness for C10 at the shared-assistant forest: the leaf at timestamp 20
precedes the leaf at timestamp 30, and the session of the earlier leaf is the
unique consumer of the shared usage key. -/
theorem c10_ascending_leaf_priority_witness :
    tsNumOrZero fxLeafEarly < tsNumOrZero fxLeafLate ∧
    ∃ entry ∈ (claudeScan fxForest (fun _ => none) (fun _ => none)).sessions,
      entry.session.id = fxLeafEarly.uuid ∧ "m1:r1" ∈ entry.usedKeys ∧
      (∀ entry' ∈ (claudeScan fxForest (fun _ => none) (fun _ => none)).sessions,
        "m1:r1" ∈ entry'.usedKeys → entry' = entry) ∧
      ∀ entry' ∈ (claudeScan fxForest (fun _ => none) (fun _ => none)).sessions,
        entry'.session.id = fxLeafLate.uuid → "m1:r1" ∉ entry'.usedKeys := by
  refine ⟨by decide, ?_⟩
  have hvac : ∀ C ∈ identifyLeafMessages fxForest, C.uuid ≠ fxLeafEarly.uuid →
      tsNumOrZero C ≤ tsNumOrZero fxLeafEarly → False := by decide
  exact c10_ascending_leaf_priority.2 fxForest (fun _ => none) (fun _ => none)
    fxLeafEarly fxLeafLate [fxRootUser, fxSharedAssistant, fxLeafEarly]
    [fxRootUser, fxSharedAssistant, fxLeafLate] "m1:r1" 20
    (by decide) (by decide) (by decide) (by decide) (by decide) (by decide)
    (by decide) (by decide)
    (fun C hC hne hle tC htC hk => (hvac C hC hne hle).elim)
    (by decide) (by decide) (by decide)
